import Mathlib

/-!
Verification development for the PFV (Pretty Fast Video) codec.

This file gives a shallow embedding, in Lean, of the parts of the codec that
the specification's testable properties talk about: run-length encoding of
DCT coefficients, Huffman-tree construction, the integer 8-point DCT, the
video-plane primitives and the motion search, the container header, and the
decoder's packet loop.  Definitions are translated from the Rust sources
(`src/rle.rs`, `src/huffman.rs`, `src/dct.rs`, `src/plane.rs`,
`src/common.rs`, `src/enc.rs`, `src/dec.rs`); machine integers are modelled
as `Nat`/`Int` (with explicit `% 2^w` where the source can wrap), and
fallible operations return `Option`/`Except`.
-/

set_option maxRecDepth 4096

namespace PFV

/-! ## Run-length encoding (`src/rle.rs`)

`RLESequence` is the RLE symbol: a run of zeroes, the bit width of the
following coefficient (0 when the symbol is a pure zero run), and the
coefficient itself.  Fields `num_zeroes`/`coeff_size` are `u8` in the source
and are modelled as `Nat`; `coeff` is `i16`, modelled as `Int`.
-/

structure RLESequence where
  num_zeroes : Nat
  coeff_size : Nat
  coeff : Int
  deriving DecidableEq, Repr

/-- Number of significant bits of a u16 value: `16 - c.leading_zeros()`,
i.e. the largest `k+1` with `2^k ≤ c` (0 for `c = 0`), computed by counting
down from bit 15. -/
def u16SigBitsGo : Nat → Nat → Nat
  | 0, _ => 0
  | k + 1, c => if 2 ^ k ≤ c then k + 1 else u16SigBitsGo k c

/-- Bit width recorded for a nonzero coefficient by `rle_encode`
(`src/rle.rs` lines 23-24): `c = val.abs() as u16` followed by
`numbits = (16 - c.leading_zeros()) + 1`.  The `% 65536` models the
`as u16` cast (the identity on i16 magnitudes). -/
def coeffSize (val : Int) : Nat :=
  u16SigBitsGo 16 (val.natAbs % 65536) + 1

/-- The `while run > 15 { push (15,0,0); run -= 15 }` loop of `rle_encode`:
returns the list of emitted all-zero symbols and the final value of `run`. -/
def reduceRun (run : Nat) : List RLESequence × Nat :=
  if h : 15 < run then
    let p := reduceRun (run - 15)
    (⟨15, 0, 0⟩ :: p.1, p.2)
  else
    ([], run)
termination_by run

/-- Body of `rle_encode` (`src/rle.rs` lines 9-39), with the running count of
consecutive zeroes as explicit state. -/
def rleEncodeGo : List Int → Nat → List RLESequence
  | [], run =>
      let p := reduceRun run
      p.1 ++ (if 0 < p.2 then [⟨p.2, 0, 0⟩] else [])
  | v :: rest, run =>
      if v = 0 then
        rleEncodeGo rest (run + 1)
      else
        let p := reduceRun run
        p.1 ++ ⟨p.2, coeffSize v, v⟩ :: rleEncodeGo rest 0

/-- `rle_encode` from `src/rle.rs`: the encoder starts with `run = 0` and an
empty output vector. -/
def rle_encode (data : List Int) : List RLESequence :=
  rleEncodeGo data 0

/-- The decoder's coefficient loop (`src/dec.rs`, `decode_iframe` lines
376-412, identically `decode_pframe` lines 502-533) at the symbol level:
starting from a zero-filled buffer of `n` coefficients it consumes one RLE
symbol per iteration while `out_idx < n`, first skipping `num_zeroes`
positions (which stay zero) and, when `coeff_size > 0` (`num_bits` in the
source), writing `coeff` at the next position.  Running out of symbols while
positions remain, or writing past the end of the buffer, is an error
(`none`); a zero-run that skips past the end simply terminates the loop with
the remaining positions still zero, exactly as in the source. -/
def rleDecodeGo : List RLESequence → Nat → Option (List Int)
  | _, 0 => some []
  | [], _ + 1 => none
  | s :: rest, r + 1 =>
      let n := r + 1
      if s.coeff_size = 0 then
        if s.num_zeroes < n then
          (rleDecodeGo rest (n - s.num_zeroes)).map (List.replicate s.num_zeroes 0 ++ ·)
        else
          some (List.replicate n 0)
      else
        if s.num_zeroes < n then
          (rleDecodeGo rest (n - s.num_zeroes - 1)).map
            (fun t => List.replicate s.num_zeroes 0 ++ s.coeff :: t)
        else
          none

/-- Symbol-level run-length decoding into a buffer of `n` coefficients. -/
def rle_decode (syms : List RLESequence) (n : Nat) : Option (List Int) :=
  rleDecodeGo syms n

theorem reduceRun_fst_pos {run : Nat} (h : 15 < run) :
    (reduceRun run).1 = ⟨15, 0, 0⟩ :: (reduceRun (run - 15)).1 := by
  rw [reduceRun]
  simp [h]

theorem reduceRun_snd_pos {run : Nat} (h : 15 < run) :
    (reduceRun run).2 = (reduceRun (run - 15)).2 := by
  rw [reduceRun]
  simp [h]

theorem reduceRun_eq_neg {run : Nat} (h : ¬ 15 < run) : reduceRun run = ([], run) := by
  rw [reduceRun]
  simp [h]

theorem rleDecodeGo_zero (syms : List RLESequence) : rleDecodeGo syms 0 = some [] := by
  cases syms <;> rfl

theorem rleDecodeGo_run {z : Nat} {c : Int} {rest : List RLESequence} {r : Nat}
    (hz : z < r + 1) :
    rleDecodeGo (⟨z, 0, c⟩ :: rest) (r + 1) =
      (rleDecodeGo rest (r + 1 - z)).map (fun t => List.replicate z 0 ++ t) := by
  rw [rleDecodeGo]
  simp [hz]

theorem rleDecodeGo_run_over {z : Nat} {c : Int} {rest : List RLESequence} {r : Nat}
    (hz : ¬ z < r + 1) :
    rleDecodeGo (⟨z, 0, c⟩ :: rest) (r + 1) = some (List.replicate (r + 1) 0) := by
  rw [rleDecodeGo]
  simp [hz]

theorem rleDecodeGo_coeff {z cs : Nat} {c : Int} {rest : List RLESequence} {r : Nat}
    (hcs : cs ≠ 0) (hz : z < r + 1) :
    rleDecodeGo (⟨z, cs, c⟩ :: rest) (r + 1) =
      (rleDecodeGo rest (r + 1 - z - 1)).map (fun t => List.replicate z 0 ++ c :: t) := by
  rw [rleDecodeGo]
  simp [hz, hcs]

theorem reduceRun_snd_le (run : Nat) : (reduceRun run).2 ≤ 15 ∧ (reduceRun run).2 ≤ run := by
  induction run using Nat.strong_induction_on with
  | _ run ih =>
    by_cases h : 15 < run
    · have := ih (run - 15) (by omega)
      rw [reduceRun_snd_pos h]
      exact ⟨this.1, by omega⟩
    · rw [reduceRun_eq_neg h]
      exact ⟨by omega, le_refl _⟩

theorem rleDecodeGo_reduceRun (run : Nat) :
    ∀ (m : Nat) (syms : List RLESequence),
    rleDecodeGo ((reduceRun run).1 ++ syms) (run + m) =
      (rleDecodeGo syms ((reduceRun run).2 + m)).map
        (fun t => List.replicate (run - (reduceRun run).2) 0 ++ t) := by
  induction run using Nat.strong_induction_on with
  | _ run ih =>
    intro m syms
    by_cases h : 15 < run
    · rw [reduceRun_fst_pos h, reduceRun_snd_pos h, List.cons_append]
      rw [show run + m = (run + m - 1) + 1 by omega]
      rw [rleDecodeGo_run (by omega)]
      rw [show (run + m - 1) + 1 - 15 = (run - 15) + m by omega]
      rw [ih (run - 15) (by omega) m syms]
      have hle := (reduceRun_snd_le (run - 15)).2
      rw [Option.map_map]
      congr 1
      funext t
      simp only [Function.comp_apply, ← List.append_assoc, ← List.replicate_add]
      congr 2
      omega
    · rw [reduceRun_eq_neg h]
      simp

theorem rleEncodeGo_decode (data : List Int) :
    ∀ run : Nat,
    rleDecodeGo (rleEncodeGo data run) (run + data.length) =
      some (List.replicate run 0 ++ data) := by
  induction data with
  | nil =>
    intro run
    rw [rleEncodeGo]
    have hle := reduceRun_snd_le run
    have hmain := rleDecodeGo_reduceRun run 0
      (if 0 < (reduceRun run).2 then [⟨(reduceRun run).2, 0, 0⟩] else [])
    simp only [List.length_nil, Nat.add_zero] at hmain ⊢
    rw [hmain]
    obtain ⟨hle1, hle2⟩ := hle
    by_cases hr : 0 < (reduceRun run).2
    · rw [if_pos hr]
      obtain ⟨k, hk⟩ : ∃ k, (reduceRun run).2 = k + 1 := ⟨(reduceRun run).2 - 1, by omega⟩
      rw [hk, rleDecodeGo_run_over (by omega)]
      simp only [Option.map_some']
      rw [← List.replicate_add]
      have harith : run - (k + 1) + (k + 1) = run := by omega
      rw [harith]
      simp
    · rw [if_neg hr]
      have h0 : (reduceRun run).2 = 0 := by omega
      rw [h0, rleDecodeGo_zero]
      simp only [Option.map_some']
      rw [Nat.sub_zero]
  | cons v rest ih =>
    intro run
    rw [rleEncodeGo]
    by_cases hv : v = 0
    · rw [if_pos hv]
      have hgoal := ih (run + 1)
      rw [show run + (v :: rest).length = (run + 1) + rest.length by simp; omega, hgoal]
      rw [hv, List.replicate_succ' run (0 : Int)]
      simp
    · rw [if_neg hv]
      have hcs : coeffSize v ≠ 0 := by simp [coeffSize]
      obtain ⟨hle1, hle2⟩ := reduceRun_snd_le run
      have hmain := rleDecodeGo_reduceRun run (1 + rest.length)
        (⟨(reduceRun run).2, coeffSize v, v⟩ :: rleEncodeGo rest 0)
      rw [show run + (v :: rest).length = run + (1 + rest.length) by simp; omega]
      rw [hmain]
      rw [show (reduceRun run).2 + (1 + rest.length) = ((reduceRun run).2 + rest.length) + 1 by
        omega]
      have hzlt : (reduceRun run).2 < ((reduceRun run).2 + rest.length) + 1 := by omega
      rw [rleDecodeGo_coeff hcs hzlt]
      rw [show ((reduceRun run).2 + rest.length) + 1 - (reduceRun run).2 - 1 = rest.length by
        omega]
      have hrec := ih 0
      simp only [Nat.zero_add, List.replicate_zero, List.nil_append] at hrec
      rw [hrec]
      simp only [Option.map_some']
      rw [← List.append_assoc, ← List.replicate_add]
      have harith : run - (reduceRun run).2 + (reduceRun run).2 = run := by omega
      rw [harith]

/-- C1: run-length decoding the output of `rle_encode(v)` with the decoder's
coefficient loop — skipping `num_zeroes` zero entries per symbol and writing
`coeff` whenever `coeff_size > 0`, stopping once `v.length` entries have been
produced — reconstructs exactly the sequence `v`.  Stated for every sequence
of integers, which subsumes every sequence of 16-bit signed integers. -/
theorem rle_roundtrip (v : List Int) :
    rle_decode (rle_encode v) v.length = some v := by
  have := rleEncodeGo_decode v 0
  simpa [rle_encode, rle_decode] using this

/-- C5: evaluating the encoder at the failing input.  `rle_encode` promises
(debug assertion in `rle_create_huffman`, `src/rle.rs` line 45) symbols with
`coeff_size < 16`, but the input `[16384]` produces the symbol
`(0, 16, 16384)` whose `coeff_size` is 16, outside `[0,15]`. -/
theorem rle_encode_coeff_size_16 :
    rle_encode [(16384 : Int)] = [⟨0, 16, 16384⟩] ∧ ¬ (16 ≤ 15) := by
  refine ⟨?_, by decide⟩
  rw [rle_encode, rleEncodeGo, if_neg (by norm_num : (16384 : Int) ≠ 0),
    reduceRun_eq_neg (by norm_num), rleEncodeGo, reduceRun_eq_neg (by norm_num)]
  simp only [List.nil_append]
  norm_num
  decide

/-! ## Huffman coding (`src/huffman.rs`)

`Code` is a Huffman code under construction: `val` holds the bits (`u32`,
modelled as `Nat`; values stay far below `2^32`), `len` the bit count, and
`symbol` the symbol the code encodes.  `Node` is the tree node: the source's
`Node { freq, ch: Option<u8>, left, right }` only ever takes the shapes
leaf (`ch = Some`, no children), internal (`ch = None`, both children), or
the empty-tree root `Node::new(0, None)`, modelled here as three
constructors.
-/

structure Code where
  val : Nat
  len : Nat
  symbol : Nat
  deriving DecidableEq, Repr

def Code.new : Code := ⟨0, 0, 0⟩

/-- `Code::append` (`src/huffman.rs` line 30): or the bit in at position
`len` and increment `len`. -/
def Code.append (s : Code) (bit : Bool) : Code :=
  ⟨s.val ||| ((if bit then 1 else 0) <<< s.len), s.len + 1, s.symbol⟩

/-- `Code::mask` (`src/huffman.rs` line 34): `(1 << len) - 1`. -/
def Code.mask (s : Code) : Nat := 2 ^ s.len - 1

inductive Node where
  | leaf (freq : Nat) (ch : Nat) : Node
  | node (freq : Nat) (left right : Node) : Node
  | nil : Node
  deriving DecidableEq, Repr

def Node.freq : Node → Nat
  | .leaf f _ => f
  | .node f _ _ => f
  | .nil => 0

/-- Symbols occurring at the leaves of a node, left to right. -/
def Node.symbols : Node → List Nat
  | .leaf _ ch => [ch]
  | .node _ l r => l.symbols ++ r.symbols
  | .nil => []

/-- Leaf nodes for the nonzero-frequency symbols, in symbol order
(`from_table`, `src/huffman.rs` lines 74-78). -/
def initialNodes (table : List Nat) : List Node :=
  table.enum.filterMap (fun e => if 0 < e.2 then some (.leaf e.2 e.1) else none)

/-- Stable insertion used to model the source's stable
`sort_by(|a, b| b.freq.cmp(&a.freq))`: an element is placed before the first
element whose frequency is not larger, so equal-frequency elements keep
their original relative order. -/
def insertFreqDesc (n : Node) : List Node → List Node
  | [] => [n]
  | m :: rest => if n.freq < m.freq then m :: insertFreqDesc n rest else n :: m :: rest

def sortFreqDesc : List Node → List Node
  | [] => []
  | n :: rest => insertFreqDesc n (sortFreqDesc rest)

/-- `get_insert_index` (`src/huffman.rs` lines 61-69): the first index whose
frequency is smaller than the new node's, or the length of the list. -/
def getInsertIndex (c : Node) : List Node → Nat
  | [] => 0
  | m :: rest => if m.freq < c.freq then 0 else getInsertIndex c rest + 1

def insertAt : Nat → Node → List Node → List Node
  | 0, c, l => c :: l
  | _ + 1, c, [] => [c]
  | i + 1, c, m :: rest => m :: insertAt i c rest

/-- One iteration of the merge loop of `from_table` (`src/huffman.rs` lines
83-93): pop the two lowest-frequency nodes from the end of the
descending-sorted list, merge them (first popped becomes the left child),
and insertion-sort the merged node back. -/
def buildStep (p : List Node) : List Node :=
  let a := p.getLastD .nil
  let p1 := p.dropLast
  let b := p1.getLastD .nil
  let p2 := p1.dropLast
  let c := Node.node (a.freq + b.freq) a b
  insertAt (getInsertIndex c p2) c p2

/-- The `while p.len() > 1` merge loop.  Each iteration shrinks the list by
exactly one node, so any fuel at least `p.length` makes the fuelled loop
agree with the source's unbounded loop. -/
def buildLoopF : Nat → List Node → List Node
  | 0, p => p
  | fuel + 1, p => if 1 < p.length then buildLoopF fuel (buildStep p) else p

/-- `assign_codes` (`src/huffman.rs` lines 204-217): walk the tree, append 0
on the left edge and 1 on the right, and record each leaf's accumulated code
at its symbol's index. -/
def assignCodes (p : Node) (h : List Code) (s : Code) : List Code :=
  match p with
  | .leaf _ ch => h.set ch ⟨s.val, s.len, ch⟩
  | .node _ l r => assignCodes r (assignCodes l h (s.append false)) (s.append true)
  | .nil => h

/-- One entry of the pre-masked fast decoder table (`from_table`,
`src/huffman.rs` lines 107-116): the first code of length in `[1,8]` whose
bits match the low bits of `val`.  The source precomputes the 256-entry
array `dec_table[val]`; the array is modelled by its graph, the function of
the 8-bit index `val`. -/
def decTableEntry (codes : List Code) (val : Nat) : Code :=
  (codes.find? (fun c =>
    decide (0 < c.len) && decide (c.len ≤ 8) && decide (val &&& c.mask = c.val))).getD Code.new

structure HuffmanTree where
  codes : List Code
  table : List Nat
  dec_table : Nat → Code
  root : Node

def HuffmanTree.empty : HuffmanTree :=
  ⟨List.replicate 16 Code.new, List.replicate 16 0, fun _ => Code.new, .nil⟩

/-- `HuffmanTree::from_table` (`src/huffman.rs` lines 71-119). -/
def HuffmanTree.from_table (table : List Nat) : HuffmanTree :=
  let p0 := sortFreqDesc (initialNodes table)
  let p1 := buildLoopF p0.length p0
  if p1.length = 0 then HuffmanTree.empty
  else
    let root := p1.getLastD .nil
    let codes := assignCodes root (List.replicate 16 Code.new) Code.new
    ⟨codes, table, decTableEntry codes, root⟩

/-- `HuffmanTree::get_code` (`src/huffman.rs` lines 199-201). -/
def HuffmanTree.get_code (t : HuffmanTree) (val : Nat) : Code :=
  t.codes.getD val Code.new

/-- Symbols at the leaves of a forest, in order. -/
def forestSymbols : List Node → List Nat
  | [] => []
  | n :: rest => n.symbols ++ forestSymbols rest

theorem forestSymbols_append (p q : List Node) :
    forestSymbols (p ++ q) = forestSymbols p ++ forestSymbols q := by
  induction p with
  | nil => rfl
  | cons n rest ih => simp [forestSymbols, ih]

theorem mem_forestSymbols {sym : Nat} {p : List Node} :
    sym ∈ forestSymbols p ↔ ∃ n ∈ p, sym ∈ n.symbols := by
  induction p with
  | nil => simp [forestSymbols]
  | cons n rest ih => simp [forestSymbols, ih]

theorem insertAt_length (i : Nat) (c : Node) (l : List Node) :
    (insertAt i c l).length = l.length + 1 := by
  induction i generalizing l with
  | zero => rfl
  | succ i ih =>
    cases l with
    | nil => rfl
    | cons m rest => simp [insertAt, ih]

theorem mem_insertAt {x : Node} {i : Nat} {c : Node} {l : List Node} :
    x ∈ insertAt i c l ↔ x = c ∨ x ∈ l := by
  induction i generalizing l with
  | zero => simp [insertAt]
  | succ i ih =>
    cases l with
    | nil => simp [insertAt]
    | cons m rest =>
      simp only [insertAt, List.mem_cons, ih]
      tauto

theorem mem_insertFreqDesc {x n : Node} {l : List Node} :
    x ∈ insertFreqDesc n l ↔ x = n ∨ x ∈ l := by
  induction l with
  | nil => simp [insertFreqDesc]
  | cons m rest ih =>
    simp only [insertFreqDesc]
    split
    · simp only [List.mem_cons, ih]
      tauto
    · simp [List.mem_cons]

theorem length_insertFreqDesc (n : Node) (l : List Node) :
    (insertFreqDesc n l).length = l.length + 1 := by
  induction l with
  | nil => rfl
  | cons m rest ih =>
    simp only [insertFreqDesc]
    split
    · simp [ih]
    · simp

theorem mem_sortFreqDesc {x : Node} {l : List Node} :
    x ∈ sortFreqDesc l ↔ x ∈ l := by
  induction l with
  | nil => simp [sortFreqDesc]
  | cons m rest ih => simp [sortFreqDesc, mem_insertFreqDesc, ih]

theorem length_sortFreqDesc (l : List Node) : (sortFreqDesc l).length = l.length := by
  induction l with
  | nil => rfl
  | cons m rest ih => simp [sortFreqDesc, length_insertFreqDesc, ih]

theorem buildStep_length {p : List Node} (h : 1 < p.length) :
    (buildStep p).length = p.length - 1 := by
  simp only [buildStep, insertAt_length, List.length_dropLast]
  omega

theorem buildStep_mem {p : List Node} (h : 1 < p.length) {sym : Nat}
    (hs : sym ∈ forestSymbols p) : sym ∈ forestSymbols (buildStep p) := by
  obtain ⟨r, a, hra⟩ : ∃ r a, p = r ++ [a] := by
    rcases List.eq_nil_or_concat p with h1 | ⟨r, a, h1⟩
    · simp [h1] at h
    · exact ⟨r, a, by simpa [List.concat_eq_append] using h1⟩
  obtain ⟨q, b, hqb⟩ : ∃ q b, r = q ++ [b] := by
    rcases List.eq_nil_or_concat r with h1 | ⟨q, b, h1⟩
    · simp [hra, h1] at h
    · exact ⟨q, b, by simpa [List.concat_eq_append] using h1⟩
  subst hra hqb
  simp only [buildStep, List.getLastD_concat, List.dropLast_concat]
  rw [mem_forestSymbols]
  rw [forestSymbols_append, forestSymbols_append] at hs
  simp only [forestSymbols, List.append_nil, List.mem_append] at hs
  rcases hs with (hq | hb) | ha
  · obtain ⟨n, hn, hsn⟩ := mem_forestSymbols.1 hq
    exact ⟨n, mem_insertAt.2 (Or.inr hn), hsn⟩
  · exact ⟨_, mem_insertAt.2 (Or.inl rfl), by simp [Node.symbols, hb]⟩
  · exact ⟨_, mem_insertAt.2 (Or.inl rfl), by simp [Node.symbols, ha]⟩

theorem buildStep_len2 {p : List Node} (h : p.length = 2) :
    ∃ fq l r, buildStep p = [Node.node fq l r] := by
  obtain ⟨x, y, hxy⟩ : ∃ x y, p = [x, y] := by
    match p, h with
    | [x, y], _ => exact ⟨x, y, rfl⟩
  subst hxy
  refine ⟨y.freq + x.freq, y, x, ?_⟩
  show insertAt (getInsertIndex _ _) _ _ = _
  rfl

theorem buildLoopF_singleton (fuel : Nat) (x : Node) : buildLoopF fuel [x] = [x] := by
  cases fuel <;> simp [buildLoopF]

theorem buildLoopF_result :
    ∀ (fuel : Nat) (p : List Node), 2 ≤ p.length → p.length ≤ fuel + 1 →
    ∃ fq l r, buildLoopF fuel p = [Node.node fq l r] ∧
      ∀ sym, sym ∈ forestSymbols p → sym ∈ (Node.node fq l r).symbols := by
  intro fuel
  induction fuel with
  | zero => intro p h2 hf; omega
  | succ fuel ih =>
    intro p h2 hf
    rw [buildLoopF, if_pos (by omega)]
    have hlen := buildStep_length (p := p) (by omega)
    by_cases hq2 : 2 ≤ (buildStep p).length
    · obtain ⟨fq, l, r, heq, hmem⟩ := ih (buildStep p) hq2 (by omega)
      exact ⟨fq, l, r, heq, fun sym hs => hmem sym (buildStep_mem (by omega) hs)⟩
    · have hp2 : p.length = 2 := by omega
      obtain ⟨fq, l, r, heq⟩ := buildStep_len2 hp2
      rw [heq, buildLoopF_singleton]
      refine ⟨fq, l, r, rfl, fun sym hs => ?_⟩
      have := buildStep_mem (p := p) (by omega) hs
      rw [heq] at this
      simpa [forestSymbols] using this

theorem assignCodes_length (p : Node) (h : List Code) (s : Code) :
    (assignCodes p h s).length = h.length := by
  induction p generalizing h s with
  | leaf f ch => simp [assignCodes]
  | node f l r ihl ihr => simp [assignCodes, ihl, ihr]
  | nil => rfl

theorem assignCodes_not_mem {p : Node} {h : List Code} {s : Code} {sym : Nat}
    (hs : sym ∉ p.symbols) :
    (assignCodes p h s).getD sym Code.new = h.getD sym Code.new := by
  induction p generalizing h s with
  | leaf f ch =>
    simp only [Node.symbols, List.mem_singleton] at hs
    simp [assignCodes, List.getD_eq_getElem?_getD, List.getElem?_set_ne (Ne.symm hs)]
  | node f l r ihl ihr =>
    simp only [Node.symbols, List.mem_append] at hs
    push_neg at hs
    simp only [assignCodes]
    rw [ihr hs.2, ihl hs.1]
  | nil => rfl

/-- Bonus depth below an internal node: every leaf of an internal node sits
at depth at least one. -/
def nodeBonus : Node → Nat
  | .node _ _ _ => 1
  | _ => 0

theorem assignCodes_len_ge {p : Node} {h : List Code} {s : Code} {sym : Nat}
    (hs : sym ∈ p.symbols) (hlen : sym < h.length) :
    s.len + nodeBonus p ≤ ((assignCodes p h s).getD sym Code.new).len := by
  induction p generalizing h s with
  | leaf f ch =>
    simp only [Node.symbols, List.mem_singleton] at hs
    subst hs
    simp [assignCodes, nodeBonus, List.getD_eq_getElem?_getD,
      List.getElem?_set_self, hlen]
  | node f l r ihl ihr =>
    simp only [Node.symbols, List.mem_append] at hs
    by_cases hr : sym ∈ r.symbols
    · have hrec := ihr (h := assignCodes l h (s.append false)) (s := s.append true) hr
        (by rw [assignCodes_length]; exact hlen)
      rw [show (s.append true).len = s.len + 1 from rfl] at hrec
      simp only [assignCodes, nodeBonus]
      omega
    · have hl : sym ∈ l.symbols := by tauto
      have hrec := ihl (h := h) (s := s.append false) hl hlen
      rw [show (s.append false).len = s.len + 1 from rfl] at hrec
      simp only [assignCodes, nodeBonus]
      rw [assignCodes_not_mem hr]
      omega
  | nil => simp [Node.symbols] at hs

theorem mem_initialNodes {table : List Nat} {sym : Nat}
    (hpos : 0 < table.getD sym 0) :
    Node.leaf (table.getD sym 0) sym ∈ initialNodes table := by
  have hlt : sym < table.length := by
    by_contra hge
    rw [List.getD_eq_getElem?_getD, List.getElem?_eq_none (by omega)] at hpos
    simp at hpos
  rw [initialNodes, List.mem_filterMap]
  refine ⟨(sym, table.getD sym 0), ?_, ?_⟩
  · rw [List.mem_enum_iff_getElem?]
    simp [List.getD_eq_getElem?_getD, List.getElem?_eq_getElem hlt]
  · simp only [if_pos hpos]

theorem initialNodes_length_go (t : List Nat) :
    ∀ k, ((List.enumFrom k t).filterMap
        (fun e => if 0 < e.2 then some (Node.leaf e.2 e.1) else none)).length =
      (t.filter (fun x => decide (0 < x))).length := by
  induction t with
  | nil => intro k; rfl
  | cons a rest ih =>
    intro k
    rw [List.enumFrom_cons]
    by_cases ha : 0 < a
    · simp [List.filterMap_cons, List.filter_cons, ha, ih]
    · simp [List.filterMap_cons, List.filter_cons, ha, ih]

theorem initialNodes_length (table : List Nat) :
    (initialNodes table).length = (table.filter (fun x => decide (0 < x))).length := by
  rw [initialNodes, List.enum]
  exact initialNodes_length_go table 0

/-- C4 (counterexample): a frequency table with exactly one nonzero entry
assigns that symbol the empty code — `from_table` returns the lone leaf as
root and `assign_codes` stores a length-0 code for it, so the invariant
"every nonzero-frequency symbol receives a code of length ≥ 1" fails. -/
theorem huffman_single_symbol_code_len_zero :
    0 < ([1, 0, 0, 0, 0, 0, 0, 0, 0, 0, 0, 0, 0, 0, 0, 0] : List Nat).getD 0 0 ∧
    ((HuffmanTree.from_table [1, 0, 0, 0, 0, 0, 0, 0, 0, 0, 0, 0, 0, 0, 0, 0]).codes.getD 0
      Code.new).len = 0 := by
  decide

/-- C4 (amended): whenever at least two symbols have nonzero frequency,
`HuffmanTree::from_table` assigns every nonzero-frequency symbol a code of
length at least 1 (a lone nonzero-frequency symbol instead receives the
empty, length-0 code). -/
theorem huffman_nonzero_freq_code_len_pos (table : List Nat) (h16 : table.length = 16)
    (h2 : 2 ≤ (table.filter (fun x => decide (0 < x))).length)
    (sym : Nat) (hpos : 0 < table.getD sym 0) :
    1 ≤ ((HuffmanTree.from_table table).codes.getD sym Code.new).len := by
  have hsym16 : sym < 16 := by
    by_contra hge
    rw [List.getD_eq_getElem?_getD, List.getElem?_eq_none (by omega)] at hpos
    simp at hpos
  have h2' : 2 ≤ (sortFreqDesc (initialNodes table)).length := by
    rw [length_sortFreqDesc, initialNodes_length]
    exact h2
  obtain ⟨fq, l, r, heq, hmem⟩ := buildLoopF_result
    (sortFreqDesc (initialNodes table)).length (sortFreqDesc (initialNodes table))
    h2' (by omega)
  have hsmem : sym ∈ (Node.node fq l r).symbols := by
    refine hmem sym ?_
    rw [mem_forestSymbols]
    exact ⟨Node.leaf (table.getD sym 0) sym, mem_sortFreqDesc.2 (mem_initialNodes hpos),
      by simp [Node.symbols]⟩
  rw [HuffmanTree.from_table]
  simp only [heq]
  rw [if_neg (by simp)]
  simp only [List.getLastD_concat, List.nil_append, List.getLastD]
  have := assignCodes_len_ge (p := Node.node fq l r)
    (h := List.replicate 16 Code.new) (s := Code.new) hsmem (by simpa using hsym16)
  simpa [nodeBonus, Code.new] using this

/-- C4 (witness for the amended theorem): the scenario table with symbols 1
and 15 nonzero. -/
theorem huffman_nonzero_freq_code_len_pos_witness :
    1 ≤ ((HuffmanTree.from_table [0, 10, 0, 0, 0, 0, 0, 0, 0, 0, 0, 0, 0, 0, 0, 5]).codes.getD 1
      Code.new).len :=
  huffman_nonzero_freq_code_len_pos [0, 10, 0, 0, 0, 0, 0, 0, 0, 0, 0, 0, 0, 0, 0, 5]
    (by decide) (by decide) 1 (by decide)

/-! ## Integer DCT (`src/dct.rs`)

The 8-point transforms operate on `i32` vectors.  For the input ranges
considered in this development every intermediate value stays far inside the
`i32` range, so the arithmetic is modelled exactly over `Int`; Rust's
arithmetic right shift `>>` on `i32` is floor division by a power of two
(`Int.fdiv`).
-/

/-- Rust's arithmetic right shift on `i32`: floor division by `2^n`. -/
def sar (x : Int) (n : Nat) : Int := Int.fdiv x (2 ^ n)

/-- `FP_BITS` (`src/dct.rs` line 8). -/
def FP_BITS : Nat := 8

/-- An 8-entry `i32` vector, the argument of the 1-D transforms. -/
structure Vec8 where
  e0 : Int
  e1 : Int
  e2 : Int
  e3 : Int
  e4 : Int
  e5 : Int
  e6 : Int
  e7 : Int
  deriving DecidableEq, Repr

/-- `DctMatrix8x8::fast_dct8_transform` (`src/dct.rs` lines 233-277), with
the constants `S_0..S_7 = 90,65,69,76,90,115,167,328` and
`A_1..A_5 = 181,138,181,334,97` inlined. -/
def fast_dct8_transform (x : Vec8) : Vec8 :=
  let v0 := x.e0 + x.e7
  let v1 := x.e1 + x.e6
  let v2 := x.e2 + x.e5
  let v3 := x.e3 + x.e4
  let v4 := x.e3 - x.e4
  let v5 := x.e2 - x.e5
  let v6 := x.e1 - x.e6
  let v7 := x.e0 - x.e7
  let v8 := v0 + v3
  let v9 := v1 + v2
  let v10 := v1 - v2
  let v11 := v0 - v3
  let v12 := -v4 - v5
  let v13 := sar ((v5 + v6) * 181) FP_BITS
  let v14 := v6 + v7
  let v15 := v8 + v9
  let v16 := v8 - v9
  let v17 := sar ((v10 + v11) * 181) FP_BITS
  let v18 := sar ((v12 + v14) * 97) FP_BITS
  let v19 := sar (-v12 * 138) FP_BITS - v18
  let v20 := sar (v14 * 334) FP_BITS - v18
  let v21 := v17 + v11
  let v22 := v11 - v17
  let v23 := v13 + v7
  let v24 := v7 - v13
  let v25 := v19 + v24
  let v26 := v23 + v20
  let v27 := v23 - v20
  let v28 := v24 - v19
  ⟨sar (90 * v15) FP_BITS, sar (65 * v26) FP_BITS, sar (69 * v21) FP_BITS,
    sar (76 * v28) FP_BITS, sar (90 * v16) FP_BITS, sar (115 * v25) FP_BITS,
    sar (167 * v22) FP_BITS, sar (328 * v27) FP_BITS⟩

/-- `DctMatrix8x8::fast_dct8_inverse_transform` (`src/dct.rs` lines
279-324), with `RS_0..RS_7 = 724,1004,946,851,724,568,391,199`,
`RA_1..RA_5 = 362,473,362,195,668` and `F = -256` inlined. -/
def fast_dct8_inverse_transform (x : Vec8) : Vec8 :=
  let v15 := sar (x.e0 * 724) FP_BITS
  let v26 := sar (x.e1 * 1004) FP_BITS
  let v21 := sar (x.e2 * 946) FP_BITS
  let v28 := sar (x.e3 * 851) FP_BITS
  let v16 := sar (x.e4 * 724) FP_BITS
  let v25 := sar (x.e5 * 568) FP_BITS
  let v22 := sar (x.e6 * 391) FP_BITS
  let v27 := sar (x.e7 * 199) FP_BITS
  let v19 := sar (v25 - v28) 1
  let v20 := sar (v26 - v27) 1
  let v23 := sar (v26 + v27) 1
  let v24 := sar (v25 + v28) 1
  let v7 := sar (v23 + v24) 1
  let v11 := sar (v21 + v22) 1
  let v13 := sar (v23 - v24) 1
  let v17 := sar (v21 - v22) 1
  let v8 := sar (v15 + v16) 1
  let v9 := sar (v15 - v16) 1
  let v18 := sar ((v19 - v20) * 97) FP_BITS
  let v12 := sar ((sar (v19 * 334) FP_BITS - v18) * (-256)) FP_BITS
  let v14 := sar ((v18 - sar (v20 * 138) FP_BITS) * (-256)) FP_BITS
  let v6 := v14 - v7
  let v5 := sar (v13 * 362) FP_BITS - v6
  let v4 := -v5 - v12
  let v10 := sar (v17 * 362) FP_BITS - v11
  let v0 := sar (v8 + v11) 1
  let v1 := sar (v9 + v10) 1
  let v2 := sar (v9 - v10) 1
  let v3 := sar (v8 - v11) 1
  ⟨sar (v0 + v7) 1, sar (v1 + v6) 1, sar (v2 + v5) 1, sar (v3 + v4) 1,
    sar (v3 - v4) 1, sar (v2 - v5) 1, sar (v1 - v6) 1, sar (v0 - v7) 1⟩

/-- The forward-then-inverse integer round trip. -/
def dct8_roundtrip (x : Vec8) : Vec8 :=
  fast_dct8_inverse_transform (fast_dct8_transform x)

/-- Boolean check that the round trip of the constant vector `(c,...,c)`
stays within ±1 of `c` in every component. -/
def constRoundtripOK (c : Int) : Bool :=
  let y := dct8_roundtrip ⟨c, c, c, c, c, c, c, c⟩
  decide ((y.e0 - c).natAbs ≤ 1) && decide ((y.e1 - c).natAbs ≤ 1) &&
  decide ((y.e2 - c).natAbs ≤ 1) && decide ((y.e3 - c).natAbs ≤ 1) &&
  decide ((y.e4 - c).natAbs ≤ 1) && decide ((y.e5 - c).natAbs ≤ 1) &&
  decide ((y.e6 - c).natAbs ≤ 1) && decide ((y.e7 - c).natAbs ≤ 1)

/-- C6 (counterexample): the unit vector `e1` round-trips to
`(-1,1,-2,2,-3,2,-1,0)`; its fifth component differs from the input's `0` by
3, so the integer transform pair is not within ±1 per element even on 8-bit
small integers. -/
theorem dct8_roundtrip_errs_by_three :
    dct8_roundtrip ⟨0, 1, 0, 0, 0, 0, 0, 0⟩ = ⟨-1, 1, -2, 2, -3, 2, -1, 0⟩ ∧
    ¬ (((-3 : Int) - 0).natAbs ≤ 1) := by
  constructor
  · decide
  · decide

theorem constRoundtripOK_ball : ∀ n : Nat, n < 245 → constRoundtripOK ((n : Int) - 122) = true := by
  decide

/-- C6 (amended): the ±1 round-trip bound holds on the constant vectors
`(c,...,c)` for `-122 ≤ c ≤ 122` (in particular the zero vector round-trips
exactly); it does not extend to arbitrary small vectors. -/
theorem dct8_roundtrip_const_within_one (c : Int) (h1 : -122 ≤ c) (h2 : c ≤ 122) :
    ((dct8_roundtrip ⟨c, c, c, c, c, c, c, c⟩).e0 - c).natAbs ≤ 1 ∧
    ((dct8_roundtrip ⟨c, c, c, c, c, c, c, c⟩).e1 - c).natAbs ≤ 1 ∧
    ((dct8_roundtrip ⟨c, c, c, c, c, c, c, c⟩).e2 - c).natAbs ≤ 1 ∧
    ((dct8_roundtrip ⟨c, c, c, c, c, c, c, c⟩).e3 - c).natAbs ≤ 1 ∧
    ((dct8_roundtrip ⟨c, c, c, c, c, c, c, c⟩).e4 - c).natAbs ≤ 1 ∧
    ((dct8_roundtrip ⟨c, c, c, c, c, c, c, c⟩).e5 - c).natAbs ≤ 1 ∧
    ((dct8_roundtrip ⟨c, c, c, c, c, c, c, c⟩).e6 - c).natAbs ≤ 1 ∧
    ((dct8_roundtrip ⟨c, c, c, c, c, c, c, c⟩).e7 - c).natAbs ≤ 1 := by
  have hn : ((c + 122).toNat : Int) - 122 = c := by omega
  have hlt : (c + 122).toNat < 245 := by omega
  have hok := constRoundtripOK_ball (c + 122).toNat hlt
  rw [hn] at hok
  rw [constRoundtripOK] at hok
  simp only [Bool.and_eq_true, decide_eq_true_eq] at hok
  tauto

/-- C6 (witness for the amended theorem) at `c = 100`. -/
theorem dct8_roundtrip_const_within_one_witness :
    ((dct8_roundtrip ⟨100, 100, 100, 100, 100, 100, 100, 100⟩).e0 - 100).natAbs ≤ 1 ∧
    ((dct8_roundtrip ⟨100, 100, 100, 100, 100, 100, 100, 100⟩).e1 - 100).natAbs ≤ 1 ∧
    ((dct8_roundtrip ⟨100, 100, 100, 100, 100, 100, 100, 100⟩).e2 - 100).natAbs ≤ 1 ∧
    ((dct8_roundtrip ⟨100, 100, 100, 100, 100, 100, 100, 100⟩).e3 - 100).natAbs ≤ 1 ∧
    ((dct8_roundtrip ⟨100, 100, 100, 100, 100, 100, 100, 100⟩).e4 - 100).natAbs ≤ 1 ∧
    ((dct8_roundtrip ⟨100, 100, 100, 100, 100, 100, 100, 100⟩).e5 - 100).natAbs ≤ 1 ∧
    ((dct8_roundtrip ⟨100, 100, 100, 100, 100, 100, 100, 100⟩).e6 - 100).natAbs ≤ 1 ∧
    ((dct8_roundtrip ⟨100, 100, 100, 100, 100, 100, 100, 100⟩).e7 - 100).natAbs ≤ 1 :=
  dct8_roundtrip_const_within_one 100 (by decide) (by decide)

/-! ## Video planes and macroblocks (`src/plane.rs`, `src/common.rs`)

`VideoPlane` holds a `width × height` grid of `u8` samples in a row-major
`Vec<u8>`.  Every access the codec performs is in bounds, so the flat vector
is modelled as a total coordinate-indexed function `pix x y` (x across,
y down); pixel values are `Nat` (0..255 in all reachable states).
-/

structure VideoPlane where
  width : Nat
  height : Nat
  pix : Nat → Nat → Nat

/-- `VideoPlane::new`: zero-filled plane. -/
def VideoPlane.new (w h : Nat) : VideoPlane := ⟨w, h, fun _ _ => 0⟩

/-- A plane with every sample equal to `c` (models `pixels.fill(c)`). -/
def VideoPlane.fill (w h c : Nat) : VideoPlane := ⟨w, h, fun _ _ => c⟩

/-- `VideoPlane::blit` (`src/plane.rs` lines 20-29): copy the `sw × sh`
rectangle of `src` at `(sx, sy)` to position `(dx, dy)`. -/
def VideoPlane.blit (dst src : VideoPlane) (dx dy sx sy sw sh : Nat) : VideoPlane :=
  ⟨dst.width, dst.height, fun x y =>
    if dx ≤ x ∧ x < dx + sw ∧ dy ≤ y ∧ y < dy + sh then
      src.pix (x - dx + sx) (y - dy + sy)
    else
      dst.pix x y⟩

/-- `VideoPlane::get_slice` (`src/plane.rs` lines 31-36): a fresh `sw × sh`
plane blitted from `(sx, sy)`. -/
def VideoPlane.get_slice (p : VideoPlane) (sx sy sw sh : Nat) : VideoPlane :=
  (VideoPlane.new sw sh).blit p 0 0 sx sy sw sh

/-- 16×16 macroblock (`src/common.rs` `MacroBlock`), as a coordinate
function over its 256 row-major pixels. -/
structure MacroBlock where
  pix : Nat → Nat → Nat

/-- `VideoPlane::get_block` (`src/common.rs` lines 255-267). -/
def VideoPlane.get_block (p : VideoPlane) (sx sy : Nat) : MacroBlock :=
  ⟨fun x y => if x < 16 ∧ y < 16 then p.pix (sx + x) (sy + y) else 0⟩

/-- `VideoPlane::blit_block` (`src/common.rs` lines 269-277). -/
def VideoPlane.blit_block (p : VideoPlane) (b : MacroBlock) (dx dy : Nat) : VideoPlane :=
  ⟨p.width, p.height, fun x y =>
    if dx ≤ x ∧ x < dx + 16 ∧ dy ≤ y ∧ y < dy + 16 then
      b.pix (x - dx) (y - dy)
    else
      p.pix x y⟩

/-- Squared difference of two samples. -/
def diffSq (a b : Nat) : Nat := (((a : Int) - (b : Int)) ^ 2).toNat

/-- Row-major coordinate list of a `w × h` plane (the iteration order of
`pixels.iter()`). -/
def coordsRM (w h : Nat) : List (Nat × Nat) :=
  (List.range h).flatMap (fun y => (List.range w).map (fun x => (x, y)))

/-- `VideoPlane::calc_error` (`src/common.rs` lines 98-112): running sum of
squared pixel differences with early exit as soon as the sum reaches
`ref_lms`.  The source sums `f32` values; every partial sum is an integer
below `2^24` (at most `256 · 255²`), hence exact in `f32`, so the model uses
`Nat`.  The cap is `Option Nat`, `none` standing for `f32::INFINITY` (the
initial `best_err`), against which `sum >= ref_lms` is always false. -/
def calcErrorGo (f t : VideoPlane) : List (Nat × Nat) → Nat → Option Nat → Nat
  | [], acc, _ => acc
  | c :: rest, acc, cap =>
      let acc' := acc + diffSq (f.pix c.1 c.2) (t.pix c.1 c.2)
      match cap with
      | some b => if b ≤ acc' then acc' else calcErrorGo f t rest acc' (some b)
      | none => calcErrorGo f t rest acc' none

def calc_error (f t : VideoPlane) (cap : Option Nat) : Nat :=
  calcErrorGo f t (coordsRM f.width f.height) 0 cap

/-- Full sum of squared differences over a coordinate list (specification
device used to state what `calc_error` computes). -/
def ssdList (f t : VideoPlane) (l : List (Nat × Nat)) : Nat :=
  (l.map (fun c => diffSq (f.pix c.1 c.2) (t.pix c.1 c.2))).sum

/-- Sum of squared differences over a 16×16 block comparison. -/
def ssd16 (f t : VideoPlane) : Nat := ssdList f t (coordsRM 16 16)

/-- `DctQuantizedMatrix8x8` (`src/dct.rs` lines 116-118): 64 quantized `i16`
coefficients, indexed 0..63. -/
structure DctQuantizedMatrix8x8 where
  m : Nat → Int

/-- `DeltaEncodedMacroBlock` (`src/common.rs` lines 15-19).  The `i8` motion
components always hold values in `[-16, 15]`, so the `as i8` casts in the
source are the identity and the fields are modelled as `Int`. -/
structure DeltaEncodedMacroBlock where
  motion_x : Int
  motion_y : Int
  subblocks : Option (DctQuantizedMatrix8x8 × DctQuantizedMatrix8x8 ×
    DctQuantizedMatrix8x8 × DctQuantizedMatrix8x8)

/-- State of the motion-search loop in `encode_block_delta`: best offset and
best error so far (`none` = `f32::INFINITY`). -/
structure SearchState where
  best_dx : Int
  best_dy : Int
  best_err : Option Nat

/-- `err < best_err` with `best_err` possibly infinite. -/
def ltCap (e : Nat) : Option Nat → Prop
  | some b => e < b
  | none => True

instance (e : Nat) (c : Option Nat) : Decidable (ltCap e c) := by
  cases c <;> simp [ltCap] <;> infer_instance

/-- `best_err <= min_err` for the residual-skip test; false when `best_err`
is still infinite. -/
def leCapB (c : Option Nat) (m : Nat) : Bool :=
  match c with
  | some e => decide (e ≤ m)
  | none => false

/-- A candidate offset is scored only when the 16×16 read stays inside the
reference plane (`src/common.rs` lines 138-145). -/
def offsetValid (ref : VideoPlane) (bx by_ : Nat) (c : Int × Int) : Prop :=
  0 ≤ (bx : Int) + c.1 ∧ (bx : Int) + c.1 ≤ (ref.width : Int) - 16 ∧
  0 ≤ (by_ : Int) + c.2 ∧ (by_ : Int) + c.2 ≤ (ref.height : Int) - 16

instance (ref : VideoPlane) (bx by_ : Nat) (c : Int × Int) :
    Decidable (offsetValid ref bx by_ c) := by
  unfold offsetValid; infer_instance

/-- The candidate offsets `(mx, my)` of the brute-force search, in the
source's scan order: `my` in `-16..16` outer, `mx` in `-16..16` inner.  The
out-of-bounds test on `offsy` is performed once per row in the source and
once per candidate here, which skips exactly the same candidates. -/
def searchOffsets : List (Int × Int) :=
  (List.range 32).flatMap (fun (my : Nat) =>
    (List.range 32).map (fun (mx : Nat) => ((mx : Int) - 16, (my : Int) - 16)))

/-- The reference slice a candidate offset reads. -/
def offsetSlice (ref : VideoPlane) (bx by_ : Nat) (c : Int × Int) : VideoPlane :=
  ref.get_slice ((bx : Int) + c.1).toNat ((by_ : Int) + c.2).toNat 16 16

/-- One candidate of the search loop of `encode_block_delta`
(`src/common.rs` lines 137-157). -/
def motionSearchStep (src ref : VideoPlane) (bx by_ : Nat) (st : SearchState)
    (c : Int × Int) : SearchState :=
  if offsetValid ref bx by_ c then
    let err := calc_error src (offsetSlice ref bx by_ c) st.best_err
    if ltCap err st.best_err then ⟨c.1, c.2, some err⟩ else st
  else
    st

/-- The full brute-force motion search: fold over the scan-ordered candidate
list starting from `best_dx = best_dy = 0`, `best_err = INFINITY`. -/
def motionSearch (src ref : VideoPlane) (bx by_ : Nat) : SearchState :=
  searchOffsets.foldl (motionSearchStep src ref bx by_) ⟨0, 0, none⟩

/-- Clamp an `i16` value to `[0, 255]` and truncate to `u8`. -/
def clampU8 (v : Int) : Nat := (min (max v 0) 255).toNat

/-- `VideoPlane::calc_residuals` (`src/common.rs` lines 84-96):
`(from - to) / 2 + 128`, clamped to `[0, 255]`; the `i16` division `/ 2`
truncates toward zero (`Int.tdiv`). -/
def calc_residuals (f t : VideoPlane) : VideoPlane :=
  ⟨f.width, f.height, fun x y =>
    clampU8 (Int.tdiv ((f.pix x y : Int) - (t.pix x y : Int)) 2 + 128)⟩

/-- `ZIGZAG_TABLE` (`src/dct.rs` lines 103-106). -/
def ZIGZAG_TABLE (i : Nat) : Nat :=
  [0, 1, 8, 16, 9, 2, 3, 10, 17, 24, 32, 25, 18, 11, 4, 5, 12, 19, 26, 33, 40, 48, 41, 34,
   27, 20, 13, 6, 7, 14, 21, 28, 35, 42, 49, 56, 57, 50, 43, 36, 29, 22, 15, 23, 30, 37, 44,
   51, 58, 59, 52, 45, 38, 31, 39, 46, 53, 60, 61, 54, 47, 55, 62, 63].getD i 0

/-- `INV_ZIGZAG_TABLE` (`src/dct.rs` lines 98-101). -/
def INV_ZIGZAG_TABLE (i : Nat) : Nat :=
  [0, 1, 5, 6, 14, 15, 27, 28, 2, 4, 7, 13, 16, 26, 29, 42, 3, 8, 12, 17, 25, 30, 41, 43, 9,
   11, 18, 24, 31, 40, 44, 53, 10, 19, 23, 32, 39, 45, 52, 54, 20, 22, 33, 38, 46, 51, 55,
   60, 21, 34, 37, 47, 50, 56, 59, 61, 35, 36, 48, 49, 57, 58, 62, 63].getD i 0

/-- `DctMatrix8x8` (`src/dct.rs` lines 110-112), the 64 `i32` entries as an
index function. -/
structure DctMatrix8x8 where
  m : Nat → Int

def Vec8.nth (v : Vec8) : Nat → Int
  | 0 => v.e0
  | 1 => v.e1
  | 2 => v.e2
  | 3 => v.e3
  | 4 => v.e4
  | 5 => v.e5
  | 6 => v.e6
  | _ => v.e7

def DctMatrix8x8.getRow (M : DctMatrix8x8) (r : Nat) : Vec8 :=
  ⟨M.m (r * 8), M.m (r * 8 + 1), M.m (r * 8 + 2), M.m (r * 8 + 3),
   M.m (r * 8 + 4), M.m (r * 8 + 5), M.m (r * 8 + 6), M.m (r * 8 + 7)⟩

def DctMatrix8x8.getCol (M : DctMatrix8x8) (c : Nat) : Vec8 :=
  ⟨M.m c, M.m (c + 8), M.m (c + 16), M.m (c + 24),
   M.m (c + 32), M.m (c + 40), M.m (c + 48), M.m (c + 56)⟩

/-- `dct_transform_rows` (`src/dct.rs` lines 198-204): rows are transformed
independently, so the loop of get/transform/set is the pointwise update. -/
def DctMatrix8x8.transformRows (M : DctMatrix8x8) : DctMatrix8x8 :=
  ⟨fun idx => (fast_dct8_transform (M.getRow (idx / 8))).nth (idx % 8)⟩

def DctMatrix8x8.transformCols (M : DctMatrix8x8) : DctMatrix8x8 :=
  ⟨fun idx => (fast_dct8_transform (M.getCol (idx % 8))).nth (idx / 8)⟩

def DctMatrix8x8.invTransformRows (M : DctMatrix8x8) : DctMatrix8x8 :=
  ⟨fun idx => (fast_dct8_inverse_transform (M.getRow (idx / 8))).nth (idx % 8)⟩

def DctMatrix8x8.invTransformCols (M : DctMatrix8x8) : DctMatrix8x8 :=
  ⟨fun idx => (fast_dct8_inverse_transform (M.getCol (idx % 8))).nth (idx / 8)⟩

/-- `DctMatrix8x8::encode` (`src/dct.rs` lines 147-158): zig-zag scan,
`>> FP_BITS`, then the truncating `i32` division by the table entry. -/
def DctMatrix8x8.encode (M : DctMatrix8x8) (qt : Nat → Int) : DctQuantizedMatrix8x8 :=
  ⟨fun idx => Int.tdiv (sar (M.m (ZIGZAG_TABLE idx)) FP_BITS) (qt idx)⟩

/-- `DctMatrix8x8::decode` (`src/dct.rs` lines 134-145):
`(coeff << FP_BITS) * d` through the inverse zig-zag. -/
def DctMatrix8x8.decode (q : DctQuantizedMatrix8x8) (qt : Nat → Int) : DctMatrix8x8 :=
  ⟨fun idx => q.m (INV_ZIGZAG_TABLE idx) * 2 ^ FP_BITS * qt idx⟩

/-- Modelled from the spec: the integer-pipeline `encode_subblock` glue is
not in `src` (the `common.rs` present is the float-pipeline revision, while
`dct.rs` is the integer revision the spec prefers).  Per the spec's block
codec — subtract 128, 2-D DCT, quantize — and the repository's fixed-point
convention (`(px - 128) << FP_BITS` on input), the subblock encoder maps an
8×8 plane through the integer transforms and `DctMatrix8x8::encode`. -/
def encode_subblock (src : VideoPlane) (qt : Nat → Int) : DctQuantizedMatrix8x8 :=
  DctMatrix8x8.encode
    (DctMatrix8x8.transformCols (DctMatrix8x8.transformRows
      ⟨fun idx => ((src.pix (idx % 8) (idx / 8) : Int) - 128) * 2 ^ FP_BITS⟩)) qt

/-- Modelled from the spec: the integer-pipeline `decode_subblock` glue is
likewise absent from `src`.  Per the spec — dequantize, inverse 2-D DCT
(columns then rows, as in the source's `decode_subblock`), add 128, saturate
to `[0,255]` — with the fixed-point output scaled back down by `FP_BITS`. -/
def decode_subblock (q : DctQuantizedMatrix8x8) (qt : Nat → Int) : Nat → Nat :=
  fun idx =>
    clampU8 (sar ((DctMatrix8x8.invTransformRows (DctMatrix8x8.invTransformCols
      (DctMatrix8x8.decode q qt))).m idx) FP_BITS + 128)

/-- `MacroBlock::blit_subblock` (`src/common.rs` lines 64-72). -/
def MacroBlock.blit_subblock (b : MacroBlock) (src : Nat → Nat) (dx dy : Nat) : MacroBlock :=
  ⟨fun x y =>
    if dx ≤ x ∧ x < dx + 8 ∧ dy ≤ y ∧ y < dy + 8 then
      src ((y - dy) * 8 + (x - dx))
    else
      b.pix x y⟩

/-- `MacroBlock::apply_residuals` (`src/common.rs` lines 74-80): per pixel
`clamp(ref + (res - 128) * 2, 0, 255)`, where `res` is this (residual)
block and `ref` the predicted block. -/
def MacroBlock.apply_residuals (res from_ : MacroBlock) : MacroBlock :=
  ⟨fun x y => clampU8 ((from_.pix x y : Int) + ((res.pix x y : Int) - 128) * 2)⟩

/-- `VideoPlane::encode_block_delta` (`src/common.rs` lines 127-177).
`minErr` is `px_err * px_err * 256.0`; for the encoder's
`px_err = quality * 1.5` with `quality ∈ [0,10]` this is the exact integer
`576 * quality²`, so the `f32` comparison is modelled exactly over `Nat`.
The `as usize` casts on `bx + best_dx` are taken on nonnegative values. -/
def encode_block_delta (src ref : VideoPlane) (bx by_ : Nat) (qt : Nat → Int)
    (minErr : Nat) : DeltaEncodedMacroBlock :=
  let st := motionSearch src ref bx by_
  let prev := offsetSlice ref bx by_ (st.best_dx, st.best_dy)
  if leCapB st.best_err minErr then
    ⟨st.best_dx, st.best_dy, none⟩
  else
    let d := calc_residuals src prev
    ⟨st.best_dx, st.best_dy, some (encode_subblock (d.get_slice 0 0 8 8) qt,
      encode_subblock (d.get_slice 8 0 8 8) qt,
      encode_subblock (d.get_slice 0 8 8 8) qt,
      encode_subblock (d.get_slice 8 8 8 8) qt)⟩

/-- `VideoPlane::decode_block_delta` (`src/common.rs` lines 195-226). -/
def decode_block_delta (src : DeltaEncodedMacroBlock) (ref : VideoPlane) (bx by_ : Nat)
    (qt : Nat → Int) : MacroBlock :=
  let prev := ref.get_block ((bx : Int) + src.motion_x).toNat ((by_ : Int) + src.motion_y).toNat
  match src.subblocks with
  | some s =>
      let b := ((((MacroBlock.mk (fun _ _ => 0)).blit_subblock
        (decode_subblock s.1 qt) 0 0).blit_subblock
        (decode_subblock s.2.1 qt) 8 0).blit_subblock
        (decode_subblock s.2.2.1 qt) 0 8).blit_subblock
        (decode_subblock s.2.2.2 qt) 8 8
      b.apply_residuals prev
  | none => prev

/-- `EncodedPPlane` (`src/common.rs` lines 51-57). -/
structure EncodedPPlane where
  width : Nat
  height : Nat
  blocks_wide : Nat
  blocks_high : Nat
  blocks : List DeltaEncodedMacroBlock

/-- Padding of a dimension to the next multiple of 16
(`src/common.rs`, `encode_plane_delta`). -/
def padDim (n : Nat) : Nat := n + (16 - n % 16) % 16

/-- Raster-order block coordinate list `(block_x, block_y)`. -/
def blockCoords (bw bh : Nat) : List (Nat × Nat) :=
  (List.range bh).flatMap (fun b_y => (List.range bw).map (fun b_x => (b_x, b_y)))

/-- `VideoPlane::encode_plane_delta` (`src/common.rs` lines 340-367,
multithreading variant — the one compiled with the crate's feature set; the
parallel map preserves index order, so it is an ordinary map here).  Each
macroblock is the 16×16 slice of the padded copy at its raster position. -/
def encode_plane_delta (self ref : VideoPlane) (qt : Nat → Int) (minErr : Nat)
    (clear : Nat) : EncodedPPlane :=
  let pw := padDim self.width
  let ph := padDim self.height
  let img := (VideoPlane.fill pw ph clear).blit self 0 0 0 0 self.width self.height
  let bw := pw / 16
  let bh := ph / 16
  ⟨pw, ph, bw, bh,
    (blockCoords bw bh).map (fun c =>
      encode_block_delta (img.get_slice (c.1 * 16) (c.2 * 16) 16 16) ref
        (c.1 * 16) (c.2 * 16) qt minErr)⟩

/-- `VideoPlane::decode_plane_delta` (`src/common.rs` lines 438-456):
decode every block against the reference, then blit the results into a
fresh plane in raster order. -/
def decode_plane_delta (src : EncodedPPlane) (ref : VideoPlane) (qt : Nat → Int) :
    VideoPlane :=
  (blockCoords src.blocks_wide src.blocks_high).foldl
    (fun pl c => pl.blit_block
      (decode_block_delta (src.blocks.getD (c.1 + c.2 * src.blocks_wide) ⟨0, 0, none⟩)
        ref (c.1 * 16) (c.2 * 16) qt)
      (c.1 * 16) (c.2 * 16))
    (VideoPlane.new (src.blocks_wide * 16) (src.blocks_high * 16))

/-- Full (uncapped) sum of squared differences between `f` and a same-size
plane `t`, over `f`'s coordinates — the value `calc_error` computes when no
early exit fires. -/
def fullErr (f t : VideoPlane) : Nat :=
  ssdList f t (coordsRM f.width f.height)

/-- Modelled from the spec: the four-step logarithmic search described in
§4.5 ("initial step 8: at each step, test the center and 8 neighbors at
±step; recurse at center+best with step/2; terminate when step reaches 1;
skip positions that would read outside the reference plane; score = sum of
squared pixel differences").  The center is probed first, so a tie keeps the
current center.  This is not in `src`; it is the search the claim says
`encode_block_delta` performs. -/
def fourStepProbes (center : Int × Int) (s : Int) : List (Int × Int) :=
  [center,
   (center.1 - s, center.2 - s), (center.1, center.2 - s), (center.1 + s, center.2 - s),
   (center.1 - s, center.2), (center.1 + s, center.2),
   (center.1 - s, center.2 + s), (center.1, center.2 + s), (center.1 + s, center.2 + s)]

def fourStepPick (src ref : VideoPlane) (bx by_ : Nat)
    (st : (Int × Int) × Option Nat) (c : Int × Int) : (Int × Int) × Option Nat :=
  if offsetValid ref bx by_ c then
    let e := fullErr src (offsetSlice ref bx by_ c)
    match st.2 with
    | some b => if e < b then (c, some e) else st
    | none => (c, some e)
  else st

def fourStepRound (src ref : VideoPlane) (bx by_ : Nat) (center : Int × Int) (s : Int) :
    Int × Int :=
  ((fourStepProbes center s).foldl (fourStepPick src ref bx by_) (center, none)).1

def fourStepGo (src ref : VideoPlane) (bx by_ : Nat) :
    Nat → (Int × Int) → Nat → (Int × Int)
  | 0, center, _ => center
  | fuel + 1, center, step =>
      if step = 0 then center
      else fourStepGo src ref bx by_ fuel (fourStepRound src ref bx by_ center (step : Int))
        (step / 2)

def fourStepSearch (src ref : VideoPlane) (bx by_ : Nat) : Int × Int :=
  fourStepGo src ref bx by_ 4 (0, 0) 8

theorem calcErrorGo_none (f t : VideoPlane) :
    ∀ (l : List (Nat × Nat)) (acc : Nat),
    calcErrorGo f t l acc none = acc + ssdList f t l := by
  intro l
  induction l with
  | nil => intro acc; simp [calcErrorGo, ssdList]
  | cons c rest ih =>
    intro acc
    rw [calcErrorGo, ih]
    simp [ssdList]
    omega

theorem calcErrorGo_cap (f t : VideoPlane) :
    ∀ (l : List (Nat × Nat)) (acc b : Nat),
    (acc + ssdList f t l < b → calcErrorGo f t l acc (some b) = acc + ssdList f t l) ∧
    (calcErrorGo f t l acc (some b) < b ↔ acc + ssdList f t l < b) := by
  intro l
  induction l with
  | nil =>
    intro acc b
    simp [calcErrorGo, ssdList]
  | cons c rest ih =>
    intro acc b
    rw [calcErrorGo]
    have hsum : ssdList f t (c :: rest) =
        diffSq (f.pix c.1 c.2) (t.pix c.1 c.2) + ssdList f t rest := by
      simp [ssdList]
    by_cases hle : b ≤ acc + diffSq (f.pix c.1 c.2) (t.pix c.1 c.2)
    · rw [if_pos hle]
      constructor
      · intro hlt
        omega
      · constructor
        · intro hlt
          omega
        · intro hlt
          omega
    · rw [if_neg hle]
      have := ih (acc + diffSq (f.pix c.1 c.2) (t.pix c.1 c.2)) b
      constructor
      · intro hlt
        rw [this.1 (by omega)]
        omega
      · rw [this.2]
        omega

/-- What `calc_error` computes against an infinite cap: the full SSD. -/
theorem calc_error_none (f t : VideoPlane) : calc_error f t none = fullErr f t := by
  rw [calc_error, calcErrorGo_none]
  simp [fullErr]

theorem calc_error_cap_lt (f t : VideoPlane) (b : Nat) :
    calc_error f t (some b) < b ↔ fullErr f t < b := by
  rw [calc_error, fullErr]
  have := calcErrorGo_cap f t (coordsRM f.width f.height) 0 b
  simpa using this.2

theorem calc_error_cap_eq (f t : VideoPlane) (b : Nat) (h : fullErr f t < b) :
    calc_error f t (some b) = fullErr f t := by
  rw [calc_error, fullErr]
  have := calcErrorGo_cap f t (coordsRM f.width f.height) 0 b
  simpa using this.1 (by simpa [fullErr] using h)

/-- Invariant of the motion-search fold: after processing a prefix of the
candidate list, either no candidate so far was in bounds (and the best
offset is still the initial `(0,0)` with infinite error), or the state holds
a processed, in-bounds offset whose SSD is recorded exactly and is minimal
among all processed in-bounds candidates. -/
def searchInv (src ref : VideoPlane) (bx by_ : Nat) (processed : List (Int × Int))
    (st : SearchState) : Prop :=
  (st.best_err = none ∧ st.best_dx = 0 ∧ st.best_dy = 0 ∧
    ∀ c ∈ processed, ¬ offsetValid ref bx by_ c) ∨
  (∃ e, st.best_err = some e ∧ (st.best_dx, st.best_dy) ∈ processed ∧
    offsetValid ref bx by_ (st.best_dx, st.best_dy) ∧
    e = fullErr src (offsetSlice ref bx by_ (st.best_dx, st.best_dy)) ∧
    ∀ c ∈ processed, offsetValid ref bx by_ c →
      e ≤ fullErr src (offsetSlice ref bx by_ c))

theorem searchInv_step (src ref : VideoPlane) (bx by_ : Nat)
    (processed : List (Int × Int)) (st : SearchState) (c : Int × Int)
    (h : searchInv src ref bx by_ processed st) :
    searchInv src ref bx by_ (processed ++ [c]) (motionSearchStep src ref bx by_ st c) := by
  rw [motionSearchStep]
  by_cases hv : offsetValid ref bx by_ c
  · rw [if_pos hv]
    rcases h with ⟨hn, hdx, hdy, hall⟩ | ⟨e, he, hmem, hval, herr, hmin⟩
    · rw [hn]
      have hfull : calc_error src (offsetSlice ref bx by_ c) none =
          fullErr src (offsetSlice ref bx by_ c) := calc_error_none _ _
      rw [if_pos (by simp [ltCap])]
      right
      refine ⟨_, rfl, ?_, hv, hfull, ?_⟩
      · simp
      · intro c' hc' hv'
        rcases List.mem_append.1 hc' with hin | hin
        · exact absurd hv' (hall c' hin)
        · simp only [List.mem_singleton] at hin
          subst hin
          rw [hfull]
    · rw [he]
      by_cases hlt : fullErr src (offsetSlice ref bx by_ c) < e
      · have heq := calc_error_cap_eq src (offsetSlice ref bx by_ c) e hlt
        rw [if_pos (by simpa [ltCap, heq] using hlt)]
        right
        refine ⟨_, rfl, by simp, hv, heq ▸ rfl, ?_⟩
        · intro c' hc' hv'
          rcases List.mem_append.1 hc' with hin | hin
          · have := hmin c' hin hv'
            rw [heq]
            omega
          · simp only [List.mem_singleton] at hin
            subst hin
            rw [heq]
      · have hnlt : ¬ calc_error src (offsetSlice ref bx by_ c) (some e) < e := by
          rw [calc_error_cap_lt]
          exact hlt
        rw [if_neg (by simpa [ltCap] using hnlt)]
        right
        refine ⟨e, he, List.mem_append.2 (Or.inl hmem), hval, herr, ?_⟩
        intro c' hc' hv'
        rcases List.mem_append.1 hc' with hin | hin
        · exact hmin c' hin hv'
        · simp only [List.mem_singleton] at hin
          subst hin
          omega
  · rw [if_neg hv]
    rcases h with ⟨hn, hdx, hdy, hall⟩ | ⟨e, he, hmem, hval, herr, hmin⟩
    · left
      refine ⟨hn, hdx, hdy, ?_⟩
      intro c' hc'
      rcases List.mem_append.1 hc' with hin | hin
      · exact hall c' hin
      · simp only [List.mem_singleton] at hin
        subst hin
        exact hv
    · right
      refine ⟨e, he, List.mem_append.2 (Or.inl hmem), hval, herr, ?_⟩
      intro c' hc' hv'
      rcases List.mem_append.1 hc' with hin | hin
      · exact hmin c' hin hv'
      · simp only [List.mem_singleton] at hin
        subst hin
        exact absurd hv' hv

theorem searchInv_foldl (src ref : VideoPlane) (bx by_ : Nat) :
    ∀ (l processed : List (Int × Int)) (st : SearchState),
    searchInv src ref bx by_ processed st →
    searchInv src ref bx by_ (processed ++ l)
      (l.foldl (motionSearchStep src ref bx by_) st) := by
  intro l
  induction l with
  | nil => intro processed st h; simpa using h
  | cons c rest ih =>
    intro processed st h
    have hstep := searchInv_step src ref bx by_ processed st c h
    have := ih (processed ++ [c]) _ hstep
    simpa using this

theorem motionSearch_inv (src ref : VideoPlane) (bx by_ : Nat) :
    searchInv src ref bx by_ searchOffsets (motionSearch src ref bx by_) := by
  have := searchInv_foldl src ref bx by_ searchOffsets [] ⟨0, 0, none⟩
    (Or.inl ⟨rfl, rfl, rfl, by simp⟩)
  simpa [motionSearch] using this

theorem mem_searchOffsets_range :
    ∀ c ∈ searchOffsets, -16 ≤ c.1 ∧ c.1 ≤ 15 ∧ -16 ≤ c.2 ∧ c.2 ≤ 15 := by
  intro c hc
  rw [searchOffsets, List.mem_flatMap] at hc
  obtain ⟨my, hmy, hc2⟩ := hc
  rw [List.mem_map] at hc2
  obtain ⟨mx, hmx, heq⟩ := hc2
  rw [List.mem_range] at hmy hmx
  subst heq
  dsimp only
  omega

theorem zero_mem_searchOffsets : ((0 : Int), (0 : Int)) ∈ searchOffsets := by
  rw [searchOffsets, List.mem_flatMap]
  refine ⟨16, ?_, ?_⟩
  · rw [List.mem_range]
    omega
  · rw [List.mem_map]
    refine ⟨16, ?_, ?_⟩
    · rw [List.mem_range]
      omega
    · norm_num

theorem encode_block_delta_motion (src ref : VideoPlane) (bx by_ : Nat) (qt : Nat → Int)
    (minErr : Nat) :
    (encode_block_delta src ref bx by_ qt minErr).motion_x = (motionSearch src ref bx by_).best_dx ∧
    (encode_block_delta src ref bx by_ qt minErr).motion_y = (motionSearch src ref bx by_).best_dy := by
  rw [encode_block_delta]
  split <;> exact ⟨rfl, rfl⟩

/-- C10: every macroblock produced by `encode_block_delta` carries motion
components in `[-16, 15]` — the search loops run over `-16..16` exclusive of
`+16`, so the encoder never emits a component equal to `+16`, although the
7-bit signed fields and the decoder's assertions would accept it. -/
theorem encode_block_delta_motion_bounds (src ref : VideoPlane) (bx by_ : Nat)
    (qt : Nat → Int) (minErr : Nat) :
    -16 ≤ (encode_block_delta src ref bx by_ qt minErr).motion_x ∧
    (encode_block_delta src ref bx by_ qt minErr).motion_x ≤ 15 ∧
    -16 ≤ (encode_block_delta src ref bx by_ qt minErr).motion_y ∧
    (encode_block_delta src ref bx by_ qt minErr).motion_y ≤ 15 := by
  obtain ⟨hx, hy⟩ := encode_block_delta_motion src ref bx by_ qt minErr
  rw [hx, hy]
  rcases motionSearch_inv src ref bx by_ with ⟨_, hdx, hdy, _⟩ | ⟨e, _, hmem, _⟩
  · rw [hdx, hdy]
    norm_num
  · have := mem_searchOffsets_range _ hmem
    simpa using this

/-- C7 (counterexample): with a uniform 32×16 reference and the block at
`(16, 0)`, the brute-force scan of `encode_block_delta` settles on motion
`(-16, 0)` — the first in-bounds candidate in scan order, at SSD 0 — while
the four-step logarithmic search of the claim (whose total displacement
cannot exceed `8+4+2+1 = 15`) stays at `(0, 0)`.  The selection the claim
describes therefore disagrees with the code. -/
theorem motion_search_not_four_step :
    (encode_block_delta ⟨16, 16, fun _ _ => 128⟩ ⟨32, 16, fun _ _ => 128⟩ 16 0
      (fun _ => 16) 0).motion_x = -16 ∧
    fourStepSearch ⟨16, 16, fun _ _ => 128⟩ ⟨32, 16, fun _ _ => 128⟩ 16 0 = (0, 0) ∧
    ¬ ((-16 : Int) = 0) := by
  refine ⟨by decide, by decide, by decide⟩

/-- C7 (amended): `encode_block_delta` selects its motion vector by the
exhaustive scan over all offsets in `[-16,15]²` (my outer, mx inner), not a
four-step logarithmic search: whenever the block itself lies in the
reference plane, the selected offset is in bounds and its sum of squared
differences is minimal among all in-bounds offsets of the scan range; the
early-exit in `calc_error` never changes the selection. -/
theorem encode_block_delta_minimizes (src ref : VideoPlane) (bx by_ : Nat)
    (qt : Nat → Int) (minErr : Nat)
    (hx : bx + 16 ≤ ref.width) (hy : by_ + 16 ≤ ref.height) :
    offsetValid ref bx by_
      ((encode_block_delta src ref bx by_ qt minErr).motion_x,
       (encode_block_delta src ref bx by_ qt minErr).motion_y) ∧
    ∀ c ∈ searchOffsets, offsetValid ref bx by_ c →
      fullErr src (offsetSlice ref bx by_
          ((encode_block_delta src ref bx by_ qt minErr).motion_x,
           (encode_block_delta src ref bx by_ qt minErr).motion_y)) ≤
        fullErr src (offsetSlice ref bx by_ c) := by
  obtain ⟨hmx, hmy⟩ := encode_block_delta_motion src ref bx by_ qt minErr
  rw [hmx, hmy]
  have hvalid0 : offsetValid ref bx by_ (0, 0) := by
    unfold offsetValid
    constructor
    · omega
    constructor
    · omega
    constructor
    · omega
    · omega
  rcases motionSearch_inv src ref bx by_ with ⟨_, _, _, hall⟩ | ⟨e, _, hmem, hval, herr, hmin⟩
  · exact absurd hvalid0 (hall _ zero_mem_searchOffsets)
  · refine ⟨hval, fun c hc hvc => ?_⟩
    rw [← herr]
    exact hmin c hc hvc

/-- C7 (witness for the amended theorem), at the uniform 16×16 block over a
uniform 32×16 reference. -/
theorem encode_block_delta_minimizes_witness :
    offsetValid ⟨32, 16, fun _ _ => 128⟩ 16 0
      ((encode_block_delta ⟨16, 16, fun _ _ => 128⟩ ⟨32, 16, fun _ _ => 128⟩ 16 0
          (fun _ => 16) 0).motion_x,
       (encode_block_delta ⟨16, 16, fun _ _ => 128⟩ ⟨32, 16, fun _ _ => 128⟩ 16 0
          (fun _ => 16) 0).motion_y) ∧
    ∀ c ∈ searchOffsets, offsetValid ⟨32, 16, fun _ _ => 128⟩ 16 0 c →
      fullErr ⟨16, 16, fun _ _ => 128⟩ (offsetSlice ⟨32, 16, fun _ _ => 128⟩ 16 0
          ((encode_block_delta ⟨16, 16, fun _ _ => 128⟩ ⟨32, 16, fun _ _ => 128⟩ 16 0
              (fun _ => 16) 0).motion_x,
           (encode_block_delta ⟨16, 16, fun _ _ => 128⟩ ⟨32, 16, fun _ _ => 128⟩ 16 0
              (fun _ => 16) 0).motion_y)) ≤
        fullErr ⟨16, 16, fun _ _ => 128⟩ (offsetSlice ⟨32, 16, fun _ _ => 128⟩ 16 0 c) :=
  encode_block_delta_minimizes ⟨16, 16, fun _ _ => 128⟩ ⟨32, 16, fun _ _ => 128⟩ 16 0
    (fun _ => 16) 0 (by norm_num) (by norm_num)

/-- The per-block header bit `has_mvec` written by `write_pframe_packet`
(`src/enc.rs` lines 472, 484, 496): set iff a motion component is nonzero. -/
def blockHasMvec (b : DeltaEncodedMacroBlock) : Bool :=
  decide (b.motion_x ≠ 0) || decide (b.motion_y ≠ 0)

/-- The per-block header bit for coefficients (`src/enc.rs` lines 475, 487,
499): `b.subblocks.is_some()`. -/
def blockHasCoeff (b : DeltaEncodedMacroBlock) : Bool :=
  b.subblocks.isSome

theorem mem_coordsRM {w h x y : Nat} : (x, y) ∈ coordsRM w h ↔ x < w ∧ y < h := by
  rw [coordsRM, List.mem_flatMap]
  constructor
  · rintro ⟨y', hy', hmem⟩
    rw [List.mem_map] at hmem
    obtain ⟨x', hx', heq⟩ := hmem
    rw [List.mem_range] at hy' hx'
    cases heq
    exact ⟨hx', hy'⟩
  · rintro ⟨hx, hy⟩
    refine ⟨y, ?_, ?_⟩
    · rw [List.mem_range]
      exact hy
    · rw [List.mem_map]
      exact ⟨x, by rw [List.mem_range]; exact hx, rfl⟩

theorem mem_blockCoords {bw bh x y : Nat} : (x, y) ∈ blockCoords bw bh ↔ x < bw ∧ y < bh := by
  rw [blockCoords, List.mem_flatMap]
  constructor
  · rintro ⟨y', hy', hmem⟩
    rw [List.mem_map] at hmem
    obtain ⟨x', hx', heq⟩ := hmem
    rw [List.mem_range] at hy' hx'
    cases heq
    exact ⟨hx', hy'⟩
  · rintro ⟨hx, hy⟩
    refine ⟨y, ?_, ?_⟩
    · rw [List.mem_range]
      exact hy
    · rw [List.mem_map]
      exact ⟨x, by rw [List.mem_range]; exact hx, rfl⟩

theorem diffSq_eq_zero {a b : Nat} : diffSq a b = 0 ↔ a = b := by
  rw [diffSq]
  constructor
  · intro h
    have hnn : (0 : Int) ≤ ((a : Int) - b) ^ 2 := sq_nonneg _
    have : ((a : Int) - b) ^ 2 = 0 := by omega
    have := pow_eq_zero_iff (n := 2) (by omega) |>.1 this
    omega
  · intro h
    subst h
    simp

theorem ssdList_eq_zero_iff (f t : VideoPlane) (l : List (Nat × Nat)) :
    ssdList f t l = 0 ↔ ∀ c ∈ l, f.pix c.1 c.2 = t.pix c.1 c.2 := by
  rw [ssdList, List.sum_eq_zero_iff]
  constructor
  · intro h c hc
    have := h _ (List.mem_map.2 ⟨c, hc, rfl⟩)
    exact diffSq_eq_zero.1 this
  · intro h x hx
    rw [List.mem_map] at hx
    obtain ⟨c, hc, rfl⟩ := hx
    exact diffSq_eq_zero.2 (h c hc)

theorem blockCoords_succ (bw bh : Nat) :
    blockCoords bw (bh + 1) =
      ((List.range bw).map (fun b_x => (b_x, 0))) ++
        (blockCoords bw bh).map (fun c => (c.1, c.2 + 1)) := by
  rw [blockCoords, List.range_succ_eq_map, List.flatMap_cons, List.flatMap_map]
  congr 1
  rw [blockCoords, List.map_flatMap]
  congr 1
  funext y
  rw [List.map_map]
  rfl

theorem blockCoords_getElem (bw : Nat) :
    ∀ (bh i : Nat), i < bw * bh → (blockCoords bw bh)[i]? = some (i % bw, i / bw) := by
  intro bh
  induction bh with
  | zero => intro i hi; omega
  | succ bh ih =>
    intro i hi
    have hexp : bw * (bh + 1) = bw * bh + bw := by ring
    have hbw : 0 < bw := by
      rcases Nat.eq_zero_or_pos bw with h0 | h
      · rw [h0] at hi
        simp at hi
      · exact h
    have hlen : ((List.range bw).map (fun b_x => (b_x, 0))).length = bw := by
      simp [List.length_map, List.length_range]
    rw [blockCoords_succ]
    by_cases hlt : i < bw
    · rw [List.getElem?_append_left (by rw [hlen]; exact hlt)]
      rw [List.getElem?_map, List.getElem?_range hlt]
      simp only [Option.map_some']
      congr 1
      rw [Nat.mod_eq_of_lt hlt, Nat.div_eq_of_lt hlt]
    · obtain ⟨j, rfl⟩ : ∃ j, i = bw + j := ⟨i - bw, by omega⟩
      rw [List.getElem?_append_right (by rw [hlen]; omega)]
      rw [hlen, show bw + j - bw = j by omega]
      rw [List.getElem?_map]
      have hj : j < bw * bh := by omega
      rw [ih j hj]
      simp only [Option.map_some']
      have h1 : (bw + j) % bw = j % bw := Nat.add_mod_left bw j
      have h2 : (bw + j) / bw = j / bw + 1 := by
        rw [show bw + j = j + bw by omega, Nat.add_div_right _ hbw]
      rw [h1, h2]

theorem blockCoords_nodup (bw : Nat) : ∀ bh, (blockCoords bw bh).Nodup := by
  intro bh
  induction bh with
  | zero => exact List.Pairwise.nil
  | succ bh ih =>
    rw [blockCoords_succ, List.nodup_append]
    refine ⟨?_, ?_, ?_⟩
    · exact List.Nodup.map (fun a b h => by cases h; rfl) (List.nodup_range bw)
    · exact List.Nodup.map (fun a b h => by
        cases a; cases b
        simp only [Prod.mk.injEq] at h
        simp [h.1, Nat.succ_injective h.2]) ih
    · intro a ha hb
      rw [List.mem_map] at ha hb
      obtain ⟨x, _, rfl⟩ := ha
      obtain ⟨c, _, heq⟩ := hb
      have : (0 : Nat) = c.2 + 1 := congrArg Prod.snd heq.symm
      omega

theorem blit_block_pix_ne (pl : VideoPlane) (b : MacroBlock) (c : Nat × Nat) (x y : Nat)
    (h : c ≠ (x / 16, y / 16)) :
    (pl.blit_block b (c.1 * 16) (c.2 * 16)).pix x y = pl.pix x y := by
  rw [VideoPlane.blit_block]
  dsimp only
  rw [if_neg]
  rintro ⟨h1, h2, h3, h4⟩
  apply h
  have hc1 : c.1 = x / 16 := by omega
  have hc2 : c.2 = y / 16 := by omega
  rw [← hc1, ← hc2]

theorem foldl_blit_untouched (g : Nat × Nat → MacroBlock) (x y : Nat) :
    ∀ (l : List (Nat × Nat)) (p0 : VideoPlane), (x / 16, y / 16) ∉ l →
    (l.foldl (fun pl c => pl.blit_block (g c) (c.1 * 16) (c.2 * 16)) p0).pix x y =
      p0.pix x y := by
  intro l
  induction l with
  | nil => intro p0 _; rfl
  | cons c rest ih =>
    intro p0 hnot
    rw [List.foldl_cons]
    rw [ih _ (fun hmem => hnot (List.mem_cons_of_mem _ hmem))]
    exact blit_block_pix_ne p0 (g c) c x y (fun heq => hnot (heq ▸ List.mem_cons_self _ _))

theorem foldl_blit_pix (g : Nat × Nat → MacroBlock) (bw bh x y : Nat) (p0 : VideoPlane)
    (hx : x < bw * 16) (hy : y < bh * 16) :
    ((blockCoords bw bh).foldl (fun pl c => pl.blit_block (g c) (c.1 * 16) (c.2 * 16))
        p0).pix x y =
      (g (x / 16, y / 16)).pix (x % 16) (y % 16) := by
  have hmem : (x / 16, y / 16) ∈ blockCoords bw bh := by
    rw [mem_blockCoords]
    omega
  obtain ⟨s, t, hst⟩ := List.append_of_mem hmem
  have hnodup := blockCoords_nodup bw bh
  rw [hst] at hnodup
  have hnt : (x / 16, y / 16) ∉ t := by
    have hsub := List.Nodup.sublist (List.sublist_append_right s _) hnodup
    exact (List.nodup_cons.1 hsub).1
  rw [hst, List.foldl_append, List.foldl_cons]
  rw [foldl_blit_untouched g x y t _ hnt]
  rw [VideoPlane.blit_block]
  dsimp only
  rw [if_pos (by omega)]
  congr 1 <;> omega

/-- Core of the zero-delta analysis: when the 16×16 source block is
pixel-identical to the reference at its own position (and lies inside the
reference), `encode_block_delta` emits no residual — the offset `(0,0)` has
SSD 0, so the search minimum is 0 and `best_err ≤ min_err` for every
quality — and decoding the emitted block reproduces the source block
exactly (whatever in-bounds offset won the tie, its SSD is 0, so the copied
block is pixel-identical). -/
theorem encode_block_delta_self (src ref : VideoPlane) (bx by_ : Nat) (qt : Nat → Int)
    (minErr : Nat) (hsw : src.width = 16) (hsh : src.height = 16)
    (hsrc : ∀ u v, u < 16 → v < 16 → src.pix u v = ref.pix (bx + u) (by_ + v))
    (hx : bx + 16 ≤ ref.width) (hy : by_ + 16 ≤ ref.height) :
    (encode_block_delta src ref bx by_ qt minErr).subblocks = none ∧
    ∀ u v, u < 16 → v < 16 →
      (decode_block_delta (encode_block_delta src ref bx by_ qt minErr) ref bx by_ qt).pix u v
        = src.pix u v := by
  have hvalid0 : offsetValid ref bx by_ (0, 0) := by
    unfold offsetValid
    refine ⟨by omega, by omega, by omega, by omega⟩
  have hslice0 : ∀ u v, u < 16 → v < 16 →
      (offsetSlice ref bx by_ (0, 0)).pix u v = ref.pix (bx + u) (by_ + v) := by
    intro u v hu hv
    rw [offsetSlice, VideoPlane.get_slice, VideoPlane.blit, VideoPlane.new]
    dsimp only
    rw [if_pos (by omega)]
    congr 1 <;> omega
  have herr0 : fullErr src (offsetSlice ref bx by_ (0, 0)) = 0 := by
    rw [fullErr, hsw, hsh, ssdList_eq_zero_iff]
    rintro ⟨u, v⟩ hc
    rw [mem_coordsRM] at hc
    rw [hsrc u v hc.1 hc.2, hslice0 u v hc.1 hc.2]
  rcases motionSearch_inv src ref bx by_ with ⟨_, _, _, hall⟩ | ⟨e, he, hmem, hval, herr, hmin⟩
  · exact absurd hvalid0 (hall _ zero_mem_searchOffsets)
  · have he0 : e = 0 := by
      have := hmin _ zero_mem_searchOffsets hvalid0
      omega
    have hbestslice : ∀ u v, u < 16 → v < 16 →
        (offsetSlice ref bx by_ ((motionSearch src ref bx by_).best_dx,
          (motionSearch src ref bx by_).best_dy)).pix u v = src.pix u v := by
      have hz : fullErr src (offsetSlice ref bx by_ ((motionSearch src ref bx by_).best_dx,
          (motionSearch src ref bx by_).best_dy)) = 0 := by
        rw [← herr, he0]
      rw [fullErr, hsw, hsh, ssdList_eq_zero_iff] at hz
      intro u v hu hv
      exact (hz (u, v) (mem_coordsRM.2 ⟨hu, hv⟩)).symm
    have henc : encode_block_delta src ref bx by_ qt minErr =
        ⟨(motionSearch src ref bx by_).best_dx, (motionSearch src ref bx by_).best_dy, none⟩ := by
      rw [encode_block_delta]
      have hle : leCapB (motionSearch src ref bx by_).best_err minErr = true := by
        rw [he, he0, leCapB]
        simp
      rw [if_pos hle]
    rw [henc]
    refine ⟨rfl, ?_⟩
    intro u v hu hv
    rw [decode_block_delta]
    dsimp only
    rw [VideoPlane.get_block]
    dsimp only
    rw [if_pos ⟨hu, hv⟩]
    have := hbestslice u v hu hv
    rw [offsetSlice, VideoPlane.get_slice, VideoPlane.blit, VideoPlane.new] at this
    dsimp only at this
    rw [if_pos (by omega)] at this
    rw [← this]
    congr 1 <;> omega

/-- C2 (counterexample): an encoder holding a uniform 32×16 reference plane,
fed the pixel-identical plane as a P-frame at quality 0, emits a second
macroblock with motion `(-16, 0)` — an earlier scan position with the same
zero SSD — so its header bit `has_mv` is 1, not the claimed `has_mv = false`
for every block. -/
theorem pframe_identical_ref_has_mv :
    ((encode_plane_delta ⟨32, 16, fun _ _ => 128⟩ ⟨32, 16, fun _ _ => 128⟩ (fun _ => 16) 0
        0).blocks.getD 1 ⟨0, 0, none⟩).motion_x = -16 ∧
    blockHasMvec ((encode_plane_delta ⟨32, 16, fun _ _ => 128⟩ ⟨32, 16, fun _ _ => 128⟩
        (fun _ => 16) 0 0).blocks.getD 1 ⟨0, 0, none⟩) = true := by
  constructor
  · decide
  · decide

/-- C2 (amended): encoding a plane pixel-identical to the reference as a
P-frame (dimensions multiples of 16, any quality) produces blocks that all
have `has_coeff = false` — no residual subblocks, hence no coefficient bits
— and decoding the result reproduces the reference exactly; blocks may
however carry a nonzero motion vector (`has_mv = true`) when an earlier
scan position ties at SSD 0. -/
theorem encode_plane_delta_identical_ref (p : VideoPlane) (qt : Nat → Int) (minErr : Nat)
    (clear : Nat) (hw : p.width % 16 = 0) (hh : p.height % 16 = 0) :
    (∀ b ∈ (encode_plane_delta p p qt minErr clear).blocks, blockHasCoeff b = false) ∧
    (∀ x y, x < p.width → y < p.height →
      (decode_plane_delta (encode_plane_delta p p qt minErr clear) p qt).pix x y = p.pix x y) := by
  have hpadw : padDim p.width = p.width := by
    rw [padDim]
    omega
  have hpadh : padDim p.height = p.height := by
    rw [padDim]
    omega
  have hbw : p.width / 16 * 16 = p.width := by omega
  have hbh : p.height / 16 * 16 = p.height := by omega
  have himg : ∀ x y, x < p.width → y < p.height →
      ((VideoPlane.fill (padDim p.width) (padDim p.height) clear).blit p 0 0 0 0
        p.width p.height).pix x y = p.pix x y := by
    intro x y hxb hyb
    rw [VideoPlane.blit, VideoPlane.fill]
    dsimp only
    rw [if_pos (by omega)]
    simp only [Nat.sub_zero, Nat.add_zero]
  have hblock : ∀ cx cy : Nat, cx < p.width / 16 → cy < p.height / 16 →
      (∀ u v, u < 16 → v < 16 →
        (((VideoPlane.fill (padDim p.width) (padDim p.height) clear).blit p 0 0 0 0
          p.width p.height).get_slice (cx * 16) (cy * 16) 16 16).pix u v =
          p.pix (cx * 16 + u) (cy * 16 + v)) := by
    intro cx cy hcx hcy u v hu hv
    rw [VideoPlane.get_slice, VideoPlane.blit, VideoPlane.new]
    dsimp only
    rw [if_pos (by omega)]
    simp only [Nat.sub_zero]
    have hin : u + cx * 16 < p.width ∧ v + cy * 16 < p.height := by
      constructor <;> omega
    rw [himg _ _ hin.1 hin.2]
    congr 1 <;> omega
  have hcore : ∀ cx cy : Nat, cx < p.width / 16 → cy < p.height / 16 →
      (encode_block_delta
        (((VideoPlane.fill (padDim p.width) (padDim p.height) clear).blit p 0 0 0 0
          p.width p.height).get_slice (cx * 16) (cy * 16) 16 16) p (cx * 16) (cy * 16)
        qt minErr).subblocks = none ∧
      ∀ u v, u < 16 → v < 16 →
        (decode_block_delta (encode_block_delta
          (((VideoPlane.fill (padDim p.width) (padDim p.height) clear).blit p 0 0 0 0
            p.width p.height).get_slice (cx * 16) (cy * 16) 16 16) p (cx * 16) (cy * 16)
          qt minErr) p (cx * 16) (cy * 16) qt).pix u v =
          p.pix (cx * 16 + u) (cy * 16 + v) := by
    intro cx cy hcx hcy
    have hself := encode_block_delta_self
      (((VideoPlane.fill (padDim p.width) (padDim p.height) clear).blit p 0 0 0 0
        p.width p.height).get_slice (cx * 16) (cy * 16) 16 16) p (cx * 16) (cy * 16) qt minErr
      rfl rfl
      (fun u v hu hv => by rw [hblock cx cy hcx hcy u v hu hv])
      (by omega) (by omega)
    refine ⟨hself.1, fun u v hu hv => ?_⟩
    rw [hself.2 u v hu hv, hblock cx cy hcx hcy u v hu hv]
  rw [hpadw, hpadh] at hcore
  constructor
  · intro b hb
    rw [encode_plane_delta] at hb
    dsimp only at hb
    rw [hpadw, hpadh] at hb
    rw [List.mem_map] at hb
    obtain ⟨c, hc, rfl⟩ := hb
    rw [mem_blockCoords] at hc
    rw [blockHasCoeff]
    rw [(hcore c.1 c.2 hc.1 hc.2).1]
    rfl
  · intro x y hxb hyb
    rw [decode_plane_delta, encode_plane_delta]
    dsimp only
    rw [hpadw, hpadh]
    rw [foldl_blit_pix _ (p.width / 16) (p.height / 16) x y _ (by omega) (by omega)]
    have hx16 : x / 16 < p.width / 16 := by omega
    have hy16 : y / 16 < p.height / 16 := by omega
    have hidx : x / 16 + y / 16 * (p.width / 16) < p.width / 16 * (p.height / 16) := by
      calc x / 16 + y / 16 * (p.width / 16)
          < p.width / 16 + y / 16 * (p.width / 16) := by omega
        _ = (y / 16 + 1) * (p.width / 16) := by ring
        _ ≤ p.height / 16 * (p.width / 16) := Nat.mul_le_mul_right _ (by omega)
        _ = p.width / 16 * (p.height / 16) := by ring
    rw [List.getD_eq_getElem?_getD, List.getElem?_map, blockCoords_getElem _ _ _ hidx]
    have hmod : (x / 16 + y / 16 * (p.width / 16)) % (p.width / 16) = x / 16 := by
      rw [Nat.add_mul_mod_self_right, Nat.mod_eq_of_lt hx16]
    have hdiv : (x / 16 + y / 16 * (p.width / 16)) / (p.width / 16) = y / 16 := by
      rw [Nat.add_mul_div_right _ _ (by omega : 0 < p.width / 16),
        Nat.div_eq_of_lt hx16]
      omega
    rw [hmod, hdiv]
    simp only [Option.map_some', Option.getD_some]
    rw [(hcore (x / 16) (y / 16) hx16 hy16).2 (x % 16) (y % 16) (by omega) (by omega)]
    congr 1 <;> omega

/-- C2 (witness for the amended theorem) at a uniform 32×16 plane. -/
theorem encode_plane_delta_identical_ref_witness :
    (∀ b ∈ (encode_plane_delta ⟨32, 16, fun _ _ => 128⟩ (VideoPlane.mk 32 16 (fun _ _ => 128))
        (fun _ => 16) 0 0).blocks, blockHasCoeff b = false) ∧
    (∀ x y, x < (VideoPlane.mk 32 16 (fun _ _ => (128 : Nat))).width →
      y < (VideoPlane.mk 32 16 (fun _ _ => (128 : Nat))).height →
      (decode_plane_delta (encode_plane_delta ⟨32, 16, fun _ _ => 128⟩
          (VideoPlane.mk 32 16 (fun _ _ => 128)) (fun _ => 16) 0 0)
        (VideoPlane.mk 32 16 (fun _ _ => 128)) (fun _ => 16)).pix x y =
        (VideoPlane.mk 32 16 (fun _ _ => (128 : Nat))).pix x y) :=
  encode_plane_delta_identical_ref (VideoPlane.mk 32 16 (fun _ _ => 128)) (fun _ => 16) 0 0
    (by norm_num) (by norm_num)

/-! ## Container header (`src/common.rs`, `src/enc.rs`, `src/dec.rs`)

Byte streams are `List Nat` with each element in `[0, 256)`.  Multi-byte
integers are little-endian.
-/

/-- Little-endian `u16` encoding. -/
def u16le (v : Nat) : List Nat := [v % 256, v / 256 % 256]

/-- Little-endian `u32` encoding. -/
def u32le (v : Nat) : List Nat :=
  [v % 256, v / 2 ^ 8 % 256, v / 2 ^ 16 % 256, v / 2 ^ 24 % 256]

/-- `PFV_MAGIC = b"PFVIDEO\0"` (`src/common.rs` line 1). -/
def PFV_MAGIC_BYTES : List Nat := [80, 70, 86, 73, 68, 69, 79, 0]

/-- `PFV_VERSION` (`src/common.rs` line 2). -/
def PFV_VERSION : Nat := 100

/-- `Q_TABLE_INTRA` (`src/dct.rs` lines 75-84). -/
def Q_TABLE_INTRA (i : Nat) : Nat :=
  [8, 16, 19, 22, 26, 27, 29, 34, 16, 16, 22, 24, 27, 29, 34, 37, 19, 22, 26, 27, 29, 34,
   34, 38, 22, 22, 26, 27, 29, 34, 37, 40, 22, 26, 27, 29, 32, 35, 40, 48, 26, 27, 29, 32,
   35, 40, 48, 58, 26, 27, 29, 34, 38, 46, 56, 69, 27, 29, 35, 38, 46, 56, 69, 83].getD i 0

/-- `Q_TABLE_INTER` (`src/dct.rs` lines 87-96): uniform 16. -/
def Q_TABLE_INTER (i : Nat) : Nat :=
  (List.replicate 64 16).getD i 0

/-- A scaled quantizer entry as the encoder computes and serializes it
(`src/enc.rs` lines 43-44 and 121-127): `(x * (quality * 0.25)).max(1.0)`
then `as u16`.  For `x ≤ 83` and `quality ≤ 10` the product is an exact
multiple of 1/4 in `f32`, so the truncated result is exactly
`max 1 (x * quality / 4)` in integers. -/
def qscaleEntry (x quality : Nat) : Nat := max 1 (x * quality / 4)

/-- The container header written by `Encoder::write` (`src/enc.rs` lines
106-127): magic, version, dimensions, framerate, audio parameters, quant
table count (2) and the two scaled tables. -/
def writeHeader (w h framerate samplerate channels quality : Nat) : List Nat :=
  PFV_MAGIC_BYTES ++ u32le PFV_VERSION ++ u16le w ++ u16le h ++ u16le framerate ++
  u16le samplerate ++ u16le channels ++ u16le 2 ++
  (List.range 64).flatMap (fun i => u16le (qscaleEntry (Q_TABLE_INTRA i) quality)) ++
  (List.range 64).flatMap (fun i => u16le (qscaleEntry (Q_TABLE_INTER i) quality))

inductive DecodeError where
  | FormatError : DecodeError
  | VersionError : DecodeError
  | IOError : DecodeError
  deriving DecidableEq, Repr

def readU8 : List Nat → Option (Nat × List Nat)
  | [] => none
  | b :: r => some (b, r)

def readU16 : List Nat → Option (Nat × List Nat)
  | b0 :: b1 :: r => some (b0 + 256 * b1, r)
  | _ => none

def readU32 : List Nat → Option (Nat × List Nat)
  | b0 :: b1 :: b2 :: b3 :: r => some (b0 + 256 * (b1 + 256 * (b2 + 256 * b3)), r)
  | _ => none

def readBytes (n : Nat) (s : List Nat) : Option (List Nat × List Nat) :=
  if n ≤ s.length then some (s.take n, s.drop n) else none

/-- Read `n` little-endian u16 values (one quant table row of reads). -/
def readU16s : Nat → List Nat → Option (List Nat × List Nat)
  | 0, s => some ([], s)
  | n + 1, s =>
      match readU16 s with
      | some (v, s1) =>
          match readU16s n s1 with
          | some (vs, s2) => some (v :: vs, s2)
          | none => none
      | none => none

/-- Read `n` quant tables of 64 u16 entries each. -/
def readQTables : Nat → List Nat → Option (List (List Nat) × List Nat)
  | 0, s => some ([], s)
  | n + 1, s =>
      match readU16s 64 s with
      | some (t, s1) =>
          match readQTables n s1 with
          | some (ts, s2) => some (t :: ts, s2)
          | none => none
      | none => none

/-- `VideoFrame` (`src/frame.rs`): three planes; chroma is quarter
resolution and initialized to 128. -/
structure VideoFrame where
  width : Nat
  height : Nat
  plane_y : VideoPlane
  plane_u : VideoPlane
  plane_v : VideoPlane

/-- `VideoFrame::new` (`src/frame.rs` lines 12-26). -/
def VideoFrame.new (w h : Nat) : VideoFrame :=
  ⟨w, h, VideoPlane.new w h, VideoPlane.fill (w / 2) (h / 2) 128,
    VideoPlane.fill (w / 2) (h / 2) 128⟩

/-- `VideoFrame::new_padded` (`src/frame.rs` lines 28-49). -/
def VideoFrame.new_padded (w h : Nat) : VideoFrame :=
  ⟨w, h, VideoPlane.new (padDim w) (padDim h),
    VideoPlane.fill (padDim (w / 2)) (padDim (h / 2)) 128,
    VideoPlane.fill (padDim (w / 2)) (padDim (h / 2)) 128⟩

/-- Decoder session state (`src/dec.rs` lines 15-31).  The reader and its
reset position are modelled by passing the packet byte stream explicitly:
`reset` re-runs decoding on the same packet bytes with `eof` cleared. -/
structure DecoderState where
  width : Nat
  height : Nat
  framerate : Nat
  samplerate : Nat
  channels : Nat
  qtables : List (List Nat)
  framebuffer : VideoFrame
  retframe : VideoFrame
  audio_buf : List Int
  eof : Bool

/-- `Decoder::new` (`src/dec.rs` lines 42-152): parse magic, version,
dimensions, audio parameters and the quant table directory; on success
return the initial state together with the packet byte stream (the
remainder after the header, i.e. the saved `reset_pos`). -/
def decoderNew (s : List Nat) : Except DecodeError (DecoderState × List Nat) :=
  match readBytes 8 s with
  | none => .error .IOError
  | some (magic, s1) =>
    if ¬ ((magic.zip PFV_MAGIC_BYTES).all (fun p => p.1 = p.2)) then .error .FormatError
    else
      match readU32 s1 with
      | none => .error .IOError
      | some (ver, s2) =>
        if ver ≠ PFV_VERSION then .error .VersionError
        else
          match readU16 s2 with
          | none => .error .IOError
          | some (w, s3) =>
            match readU16 s3 with
            | none => .error .IOError
            | some (h, s4) =>
              match readU16 s4 with
              | none => .error .IOError
              | some (fr, s5) =>
                match readU16 s5 with
                | none => .error .IOError
                | some (sr, s6) =>
                  match readU16 s6 with
                  | none => .error .IOError
                  | some (ch, s7) =>
                    match readU16 s7 with
                    | none => .error .IOError
                    | some (nq, s8) =>
                      match readQTables nq s8 with
                      | none => .error .IOError
                      | some (qts, s9) =>
                        .ok (⟨w, h, fr, sr, ch, qts,
                          VideoFrame.new_padded w h, VideoFrame.new w h,
                          [], false⟩, s9)

theorem readU32_u32le (v : Nat) (hv : v < 2 ^ 32) (rest : List Nat) :
    readU32 (u32le v ++ rest) = some (v, rest) := by
  rw [u32le]
  simp only [List.cons_append, List.nil_append, readU32]
  congr 2
  omega

/-- C9 (counterexample): the on-wire version is 100, not 200 — the encoder
writes `PFV_VERSION = 100` after the magic, and `Decoder::new` rejects a
header whose version field is 200 with `VersionError`. -/
theorem version_is_not_200 :
    PFV_VERSION ≠ 200 ∧
    decoderNew (PFV_MAGIC_BYTES ++ u32le 200) = .error DecodeError.VersionError := by
  constructor
  · decide
  · rfl

/-- C9 (amended): the container version field is the little-endian u32 100:
the encoder writes 100 immediately after the 8-byte magic, and
`Decoder::new` accepts a stream only when its version field equals 100,
returning `VersionError` for any other value. -/
theorem container_version_100 (w h fr sr ch q v : Nat) (rest : List Nat)
    (hv : v < 2 ^ 32) (hne : v ≠ 100) :
    (writeHeader w h fr sr ch q).take 12 = PFV_MAGIC_BYTES ++ u32le 100 ∧
    PFV_VERSION = 100 ∧
    decoderNew (PFV_MAGIC_BYTES ++ u32le v ++ rest) = .error DecodeError.VersionError := by
  refine ⟨rfl, rfl, ?_⟩
  rw [decoderNew]
  rw [show PFV_MAGIC_BYTES ++ u32le v ++ rest = PFV_MAGIC_BYTES ++ (u32le v ++ rest) by
    simp [List.append_assoc]]
  rw [readBytes, if_pos (by simp [PFV_MAGIC_BYTES])]
  rw [List.take_append_of_le_length (by simp [PFV_MAGIC_BYTES]),
    List.drop_append_of_le_length (by simp [PFV_MAGIC_BYTES])]
  simp only [PFV_MAGIC_BYTES, List.take_length, List.drop_length]
  rw [show List.take 8 [80, 70, 86, 73, 68, 69, 79, 0] = [80, 70, 86, 73, 68, 69, 79, 0] from
    rfl, show List.drop 8 [80, 70, 86, 73, 68, 69, 79, 0] = [] from rfl]
  rw [if_neg (by decide)]
  rw [List.nil_append, readU32_u32le v hv rest]
  dsimp only
  rw [if_pos (show v ≠ PFV_VERSION by rw [PFV_VERSION]; omega)]

/-- C9 (witness for the amended theorem). -/
theorem container_version_100_witness :
    (writeHeader 64 48 30 0 0 5).take 12 = PFV_MAGIC_BYTES ++ u32le 100 ∧
    PFV_VERSION = 100 ∧
    decoderNew (PFV_MAGIC_BYTES ++ u32le 200 ++ [7, 7]) = .error DecodeError.VersionError :=
  container_version_100 64 48 30 0 0 5 200 [7, 7] (by norm_num) (by norm_num)

/-! ## Bit-level decoding (`src/dec.rs`, `src/huffman.rs`)

The payload bit reader models `bitstream_io::BitReader<_, LittleEndian>`:
bits are consumed LSB-first within each byte, an `n`-bit read assembles its
first-read bit as bit 0 of the result, and seeks move the bit position.
Reads past the end of the payload are I/O errors (`none`).
-/

structure BitReader where
  bytes : List Nat
  pos : Nat

def bitAt (bytes : List Nat) (i : Nat) : Nat :=
  bytes.getD (i / 8) 0 / 2 ^ (i % 8) % 2

def bitsVal (bytes : List Nat) : Nat → Nat → Nat
  | _, 0 => 0
  | pos, n + 1 => bitAt bytes pos + 2 * bitsVal bytes (pos + 1) n

def BitReader.readBits (r : BitReader) (n : Nat) : Option (Nat × BitReader) :=
  if r.pos + n ≤ 8 * r.bytes.length then
    some (bitsVal r.bytes r.pos n, ⟨r.bytes, r.pos + n⟩)
  else none

def BitReader.readBit (r : BitReader) : Option (Bool × BitReader) :=
  match r.readBits 1 with
  | some (v, r1) => some (decide (v = 1), r1)
  | none => none

/-- `read_signed` in the requested bit width: two's complement, the last
(most significant) bit is the sign. -/
def BitReader.readSigned (r : BitReader) (n : Nat) : Option (Int × BitReader) :=
  match r.readBits n with
  | some (u, r1) => some (if u < 2 ^ (n - 1) then (u : Int) else (u : Int) - 2 ^ n, r1)
  | none => none

/-- `HuffmanTree::read_slow` (`src/huffman.rs` lines 125-154): walk the
tree one bit at a time; a leaf yields its symbol without consuming further
bits.  A missing child or a failed bit read is an error (the source
distinguishes `DecodeError` from `IOError`; both are `none` here). -/
def Node.readSlow : Node → BitReader → Option (Nat × BitReader)
  | .leaf _ ch, r => some (ch, r)
  | .node _ l rgt, r =>
      match r.readBit with
      | some (b, r1) => if b then rgt.readSlow r1 else l.readSlow r1
      | none => none
  | .nil, _ => none

/-- `HuffmanTree::read` (`src/huffman.rs` lines 156-197): read up to 8 bits
(bounded by the payload length in bits), look the value up in the fast
table; on a hit rewind the unused bits — the net position change is exactly
the code length — and on a miss rewind everything and walk the tree. -/
def HuffmanTree.read (t : HuffmanTree) (r : BitReader) (maxBits : Nat) :
    Option (Nat × BitReader) :=
  let readN := min (maxBits - r.pos) 8
  match r.readBits readN with
  | none => none
  | some (cur, r1) =>
      let c := t.dec_table cur
      if c.len = 0 then
        t.root.readSlow ⟨r1.bytes, r.pos⟩
      else
        some (c.symbol, ⟨r1.bytes, r.pos + c.len⟩)

/-- The coefficient read loop of `decode_iframe`/`decode_pframe`
(`src/dec.rs` lines 376-412 and 502-533) at the bit level: while fewer than
the expected number of coefficients have been produced, read a zero-run
symbol and a bit-width symbol, then the signed coefficient when the width
is nonzero.  Skipped positions are zero; a zero-run past the end terminates
the loop; a coefficient write past the end is the source's index panic
(`none`).  The source loop does not terminate if the tree repeatedly yields
the zero-progress pair `(0, 0)` without consuming bits; the fuel passed by
the callers exceeds the step count of every terminating execution, so fuel
exhaustion (`none`) models exactly the diverging executions. -/
def rleReadLoop (t : HuffmanTree) (maxBits : Nat) :
    Nat → BitReader → Nat → Option (List Int × BitReader)
  | _, r, 0 => some ([], r)
  | 0, _, _ + 1 => none
  | fuel + 1, r, rem + 1 =>
      match t.read r maxBits with
      | none => none
      | some (numZeroes, r1) =>
          match t.read r1 maxBits with
          | none => none
          | some (numBits, r2) =>
              if numBits = 0 then
                if numZeroes < rem + 1 then
                  match rleReadLoop t maxBits fuel r2 (rem + 1 - numZeroes) with
                  | some (tail, r3) => some (List.replicate numZeroes 0 ++ tail, r3)
                  | none => none
                else
                  some (List.replicate (rem + 1) 0, r2)
              else
                match r2.readSigned numBits with
                | none => none
                | some (coeff, r3) =>
                    if numZeroes < rem + 1 then
                      match rleReadLoop t maxBits fuel r3 (rem + 1 - numZeroes - 1) with
                      | some (tail, r4) => some (List.replicate numZeroes 0 ++ coeff :: tail, r4)
                      | none => none
                    else none

/-- The `i`-th 64-coefficient chunk of the decoded coefficient buffer
(`coefficients.chunks_exact(64)`; the callers produce exactly the right
total length, unread positions being zero). -/
def chunkM (coeffs : List Int) (i : Nat) : DctQuantizedMatrix8x8 :=
  ⟨fun k => coeffs.getD (i * 64 + k) 0⟩

/-- `VideoPlane::decode_block` (`src/common.rs` lines 179-193): decode the
four subblocks and assemble the 16×16 macroblock. -/
def decode_block_intra (s0 s1 s2 s3 : DctQuantizedMatrix8x8) (qt : Nat → Int) : MacroBlock :=
  ((((MacroBlock.mk (fun _ _ => 0)).blit_subblock (decode_subblock s0 qt) 0 0).blit_subblock
      (decode_subblock s1 qt) 8 0).blit_subblock
      (decode_subblock s2 qt) 0 8).blit_subblock
      (decode_subblock s3 qt) 8 8

/-- Quant tables are read from the header as u16 values (exact in the `f32`
the source stores) and consumed multiplicatively. -/
def natTableToQt (t : List Nat) : Nat → Int := fun i => (t.getD i 0 : Int)

/-- `Decoder::deserialize_plane` + `VideoPlane::decode_plane_into`
(`src/dec.rs` lines 566-595, `src/common.rs` lines 480-507): block `j` in
raster order consumes chunks `base + 4j .. base + 4j + 3`, and the decoded
blocks are blitted over the target plane in raster order. -/
def deserialize_plane (coeffs : List Int) (chunkBase : Nat) (qt : Nat → Int)
    (target : VideoPlane) : VideoPlane :=
  (blockCoords (target.width / 16) (target.height / 16)).foldl (fun pl c =>
    pl.blit_block
      (decode_block_intra
        (chunkM coeffs (chunkBase + (c.1 + c.2 * (target.width / 16)) * 4))
        (chunkM coeffs (chunkBase + (c.1 + c.2 * (target.width / 16)) * 4 + 1))
        (chunkM coeffs (chunkBase + (c.1 + c.2 * (target.width / 16)) * 4 + 2))
        (chunkM coeffs (chunkBase + (c.1 + c.2 * (target.width / 16)) * 4 + 3)) qt)
      (c.1 * 16) (c.2 * 16))
    target

/-- Read `n` whole bytes through the bit reader (the byte-aligned 8-bit
reads of the frequency table and quant-table indices). -/
def readTableBytes : Nat → BitReader → Option (List Nat × BitReader)
  | 0, r => some ([], r)
  | n + 1, r =>
      match r.readBits 8 with
      | some (b, r1) =>
          match readTableBytes n r1 with
          | some (bs, r2) => some (b :: bs, r2)
          | none => none
      | none => none

/-- `Decoder::decode_iframe` (`src/dec.rs` lines 342-442): frequency table,
Huffman tree, three quant-table indices (an out-of-range index is the
source's `self.qtables[idx]` panic), the coefficient loop sized by the
framebuffer's block counts, and the three plane deserializations consuming
consecutive chunk ranges.  The result depends on the framebuffer only
through its plane dimensions and, off the block grid, its old content. -/
def decode_iframe (qtables : List (List Nat)) (fb : VideoFrame) (payload : List Nat) :
    Option VideoFrame :=
  let maxBits := 8 * payload.length
  match readTableBytes 16 ⟨payload, 0⟩ with
  | none => none
  | some (table, r1) =>
      match readTableBytes 3 r1 with
      | none => none
      | some (idxs, r2) =>
          if idxs.getD 0 0 < qtables.length ∧ idxs.getD 1 0 < qtables.length ∧
              idxs.getD 2 0 < qtables.length then
            let yChunks := fb.plane_y.width / 16 * (fb.plane_y.height / 16) * 4
            let uChunks := fb.plane_u.width / 16 * (fb.plane_u.height / 16) * 4
            let total := (yChunks + 2 * uChunks) * 64
            match rleReadLoop (HuffmanTree.from_table table) maxBits
                (maxBits + total + 1) r2 total with
            | none => none
            | some (coeffs, _) =>
                some { fb with
                  plane_y := deserialize_plane coeffs 0
                    (natTableToQt (qtables.getD (idxs.getD 0 0) [])) fb.plane_y,
                  plane_u := deserialize_plane coeffs yChunks
                    (natTableToQt (qtables.getD (idxs.getD 1 0) [])) fb.plane_u,
                  plane_v := deserialize_plane coeffs (yChunks + uChunks)
                    (natTableToQt (qtables.getD (idxs.getD 2 0) [])) fb.plane_v }
          else none

/-- `DeltaBlockHeader` (`src/dec.rs` lines 8-13). -/
structure DeltaBlockHeader where
  mvec_x : Int
  mvec_y : Int
  has_coeff : Bool

/-- The block-header read loop of `decode_pframe` (`src/dec.rs` lines
478-496), including the `assert!` that motion components lie in
`[-16, 16]` (an assertion failure aborts, modelled as `none`). -/
def readBlockHeaders : Nat → BitReader → Option (List DeltaBlockHeader × BitReader)
  | 0, r => some ([], r)
  | n + 1, r =>
      match r.readBit with
      | none => none
      | some (hasMv, r1) =>
          match r1.readBit with
          | none => none
          | some (hasCoeff, r2) =>
              if hasMv then
                match r2.readSigned 7 with
                | none => none
                | some (mx, r3) =>
                    match r3.readSigned 7 with
                    | none => none
                    | some (my, r4) =>
                        if -16 ≤ mx ∧ mx ≤ 16 ∧ -16 ≤ my ∧ my ≤ 16 then
                          match readBlockHeaders n r4 with
                          | some (hs, r5) => some (⟨mx, my, hasCoeff⟩ :: hs, r5)
                          | none => none
                        else none
              else
                match readBlockHeaders n r2 with
                | some (hs, r3) => some (⟨0, 0, hasCoeff⟩ :: hs, r3)
                | none => none

/-- Number of coefficient chunks consumed by the blocks before global block
index `g` — the functional rendering of the shared `chunks_exact`
iterator: each `has_coeff` block consumes four 64-coefficient chunks. -/
def coeffChunksBefore (headers : List DeltaBlockHeader) (g : Nat) : Nat :=
  ((headers.take g).filter (fun hd => hd.has_coeff)).length * 4

/-- The `DeltaEncodedMacroBlock` assembled for global block index `g` by
`deserialize_plane_delta` (`src/dec.rs` lines 597-641). -/
def pframeBlock (headers : List DeltaBlockHeader) (coeffs : List Int) (g : Nat) :
    DeltaEncodedMacroBlock :=
  let hd := headers.getD g ⟨0, 0, false⟩
  ⟨hd.mvec_x, hd.mvec_y,
    if hd.has_coeff then
      some (chunkM coeffs (coeffChunksBefore headers g),
        chunkM coeffs (coeffChunksBefore headers g + 1),
        chunkM coeffs (coeffChunksBefore headers g + 2),
        chunkM coeffs (coeffChunksBefore headers g + 3))
    else none⟩

/-- The range conditions `decode_block_delta` debug-asserts
(`src/common.rs` lines 199-200); per the spec's error policy (§7),
out-of-range motion aborts decoding — modelled as failure of the plane
deserialization. -/
def blockBoundsOK (target : VideoPlane) (hd : DeltaBlockHeader) (bx by_ : Nat) : Prop :=
  0 ≤ (bx : Int) + hd.mvec_x ∧ (bx : Int) + hd.mvec_x ≤ (target.width : Int) - 16 ∧
  0 ≤ (by_ : Int) + hd.mvec_y ∧ (by_ : Int) + hd.mvec_y ≤ (target.height : Int) - 16

instance (target : VideoPlane) (hd : DeltaBlockHeader) (bx by_ : Nat) :
    Decidable (blockBoundsOK target hd bx by_) := by
  unfold blockBoundsOK; infer_instance

/-- `Decoder::deserialize_plane_delta` + `decode_plane_delta_into`
(`src/dec.rs` lines 597-641, `src/common.rs` lines 509-541): every block is
decoded against the plane's old content (the parallel map reads the
reference before any blit), then the results are blitted in raster order. -/
def deserialize_plane_delta (headers : List DeltaBlockHeader) (coeffs : List Int)
    (gOffset : Nat) (qt : Nat → Int) (target : VideoPlane) : Option VideoPlane :=
  let bw := target.width / 16
  let bh := target.height / 16
  if (blockCoords bw bh).all (fun c =>
      decide (blockBoundsOK target (headers.getD (gOffset + c.1 + c.2 * bw) ⟨0, 0, false⟩)
        (c.1 * 16) (c.2 * 16))) then
    some ((blockCoords bw bh).foldl (fun pl c =>
      pl.blit_block
        (decode_block_delta (pframeBlock headers coeffs (gOffset + c.1 + c.2 * bw))
          target (c.1 * 16) (c.2 * 16) qt)
        (c.1 * 16) (c.2 * 16)) target)
  else none

/-- `Decoder::decode_pframe` (`src/dec.rs` lines 444-564). -/
def decode_pframe (qtables : List (List Nat)) (fb : VideoFrame) (payload : List Nat) :
    Option VideoFrame :=
  let maxBits := 8 * payload.length
  match readTableBytes 16 ⟨payload, 0⟩ with
  | none => none
  | some (table, r1) =>
      match readTableBytes 3 r1 with
      | none => none
      | some (idxs, r2) =>
          if idxs.getD 0 0 < qtables.length ∧ idxs.getD 1 0 < qtables.length ∧
              idxs.getD 2 0 < qtables.length then
            let yBlocks := fb.plane_y.width / 16 * (fb.plane_y.height / 16)
            let uBlocks := fb.plane_u.width / 16 * (fb.plane_u.height / 16)
            let total := yBlocks + 2 * uBlocks
            match readBlockHeaders total r2 with
            | none => none
            | some (headers, r3) =>
                let coeffCount := (headers.filter (fun hd => hd.has_coeff)).length * 256
                match rleReadLoop (HuffmanTree.from_table table) maxBits
                    (maxBits + coeffCount + 1) r3 coeffCount with
                | none => none
                | some (coeffs, _) =>
                    match deserialize_plane_delta headers coeffs 0
                        (natTableToQt (qtables.getD (idxs.getD 0 0) [])) fb.plane_y with
                    | none => none
                    | some py =>
                        match deserialize_plane_delta headers coeffs yBlocks
                            (natTableToQt (qtables.getD (idxs.getD 1 0) [])) fb.plane_u with
                        | none => none
                        | some pu =>
                            match deserialize_plane_delta headers coeffs (yBlocks + uBlocks)
                                (natTableToQt (qtables.getD (idxs.getD 2 0) []))
                                fb.plane_v with
                            | none => none
                            | some pv =>
                                some { fb with plane_y := py, plane_u := pu, plane_v := pv }
          else none

/-- An observable event of `advance_frame`: an `on_video` or `on_audio`
callback invocation, carrying the frame or buffer passed to it. -/
inductive DecEvent where
  | video (f : VideoFrame)
  | audio (buf : List Int)

/-- The three `retframe.plane.blit(framebuffer.plane, ...)` copies
performed before `on_video` (`src/dec.rs` lines 223-225, 237-239). -/
def updateRetframe (rf fb : VideoFrame) : VideoFrame :=
  ⟨rf.width, rf.height,
    rf.plane_y.blit fb.plane_y 0 0 0 0 rf.plane_y.width rf.plane_y.height,
    rf.plane_u.blit fb.plane_u 0 0 0 0 rf.plane_u.width rf.plane_u.height,
    rf.plane_v.blit fb.plane_v 0 0 0 0 rf.plane_v.width rf.plane_v.height⟩

/-- The packet loop of `Decoder::advance_frame` (`src/dec.rs` lines
196-259).  `dA` is the audio decoder (`decode_audio`, `src/dec.rs` lines
313-340): it reads only the channel count and the packet payload and
replaces `audio_buf` wholesale, so it is abstracted as a parameter — no
claim concerns the audio samples, and every theorem below holds for every
such function.  The loop consumes at least five bytes per iteration, so a
fuel of one more than the stream length is never exhausted. -/
def advanceFrameGo (dA : Nat → List Nat → Option (List Int)) :
    Nat → DecoderState → List Nat →
    Option (DecoderState × List Nat × List DecEvent × Bool)
  | 0, _, _ => none
  | fuel + 1, st, s =>
      match readU8 s with
      | none => none
      | some (ptype, s1) =>
          match readU32 s1 with
          | none => none
          | some (plen, s2) =>
              match ptype with
              | 0 => some ({ st with eof := true }, s2, [], false)
              | 1 =>
                  if plen = 0 then
                    some (st, s2, [], true)
                  else
                    match readBytes plen s2 with
                    | none => none
                    | some (payload, rest) =>
                        match decode_iframe st.qtables st.framebuffer payload with
                        | none => none
                        | some fb1 =>
                            let rf1 := updateRetframe st.retframe fb1
                            some ({ st with framebuffer := fb1, retframe := rf1 }, rest,
                              [DecEvent.video rf1], true)
              | 2 =>
                  match readBytes plen s2 with
                  | none => none
                  | some (payload, rest) =>
                      match decode_pframe st.qtables st.framebuffer payload with
                      | none => none
                      | some fb1 =>
                          let rf1 := updateRetframe st.retframe fb1
                          some ({ st with framebuffer := fb1, retframe := rf1 }, rest,
                            [DecEvent.video rf1], true)
              | 3 =>
                  match readBytes plen s2 with
                  | none => none
                  | some (payload, rest) =>
                      match dA st.channels payload with
                      | none => none
                      | some buf =>
                          match advanceFrameGo dA fuel { st with audio_buf := buf } rest with
                          | some (st1, rest1, evs, b) =>
                              some (st1, rest1, DecEvent.audio buf :: evs, b)
                          | none => none
              | _ => advanceFrameGo dA fuel st (s2.drop plen)

/-- `Decoder::advance_frame`: immediately false at EOF, otherwise the
packet loop. -/
def advance_frame (dA : Nat → List Nat → Option (List Int)) (st : DecoderState)
    (s : List Nat) : Option (DecoderState × List Nat × List DecEvent × Bool) :=
  if st.eof then some (st, s, [], false)
  else advanceFrameGo dA (s.length + 1) st s

/-- Repeated `advance_frame` until it returns false, collecting the events
of all calls and the final state (fuel bounds the number of calls). -/
def runToEof (dA : Nat → List Nat → Option (List Int)) :
    Nat → DecoderState → List Nat → Option (List DecEvent × DecoderState)
  | 0, _, _ => none
  | n + 1, st, s =>
      match advance_frame dA st s with
      | none => none
      | some (st1, s1, evs, b) =>
          if b then
            match runToEof dA n st1 s1 with
            | some (evs2, stEnd) => some (evs ++ evs2, stEnd)
            | none => none
          else some (evs, st1)

/-- The frames delivered to `on_video`, in order. -/
def videoFrames (evs : List DecEvent) : List VideoFrame :=
  evs.filterMap (fun e =>
    match e with
    | .video f => some f
    | .audio _ => none)

/-- C8: an I-frame packet with `packet_len = 0` (a drop frame) performs no
decoding — both the padded reconstruction frame and the display frame are
untouched, the state is unchanged, `on_video` is invoked zero times — and
`advance_frame` returns `Ok(true)` as if a frame had been delivered. -/
theorem drop_frame_noop (dA : Nat → List Nat → Option (List Int)) (st : DecoderState)
    (rest : List Nat) (heof : st.eof = false) :
    advance_frame dA st (1 :: u32le 0 ++ rest) = some (st, rest, [], true) := by
  rw [advance_frame, heof]
  rw [if_neg (by simp)]
  rfl

/-- C8 (witness): a fresh 16×16 decoder state on a drop packet followed by
an EOF packet. -/
theorem drop_frame_noop_witness :
    advance_frame (fun _ _ => none)
      ⟨16, 16, 30, 0, 0, [List.replicate 64 16], VideoFrame.new_padded 16 16,
        VideoFrame.new 16 16, [], false⟩
      (1 :: u32le 0 ++ [0, 0, 0, 0, 0]) =
      some (⟨16, 16, 30, 0, 0, [List.replicate 64 16], VideoFrame.new_padded 16 16,
        VideoFrame.new 16 16, [], false⟩, [0, 0, 0, 0, 0], [], true) :=
  drop_frame_noop (fun _ _ => none) _ [0, 0, 0, 0, 0] rfl

/-! ## C3: two-run determinism across `reset` (`src/dec.rs` lines 174-178)

`Decoder::reset` clears `eof` and seeks the reader back to the first
packet (`reset_pos`); it does **not** reinitialize the framebuffer or the
display frame, so the second pass starts from whatever frames the first
pass left behind.  In the model, `reset` is `{ stEnd with eof := false }`
re-run on the same packet bytes.
-/

/-- Pointwise equality of planes on their (equal) domains. -/
def planeEqOn (p q : VideoPlane) : Prop :=
  p.width = q.width ∧ p.height = q.height ∧
  ∀ x y, x < p.width → y < p.height → p.pix x y = q.pix x y

/-- Frames of equal logical and plane dimensions whose planes agree
pointwise on their domains — the model's rendering of byte-identity of the
backing pixel vectors. -/
def frameEqOn (f g : VideoFrame) : Prop :=
  f.width = g.width ∧ f.height = g.height ∧
  planeEqOn f.plane_y g.plane_y ∧ planeEqOn f.plane_u g.plane_u ∧
  planeEqOn f.plane_v g.plane_v

/-- Equal frame and plane dimensions (pixel content unconstrained). -/
def frameShape (f g : VideoFrame) : Prop :=
  f.width = g.width ∧ f.height = g.height ∧
  f.plane_y.width = g.plane_y.width ∧ f.plane_y.height = g.plane_y.height ∧
  f.plane_u.width = g.plane_u.width ∧ f.plane_u.height = g.plane_u.height ∧
  f.plane_v.width = g.plane_v.width ∧ f.plane_v.height = g.plane_v.height

/-- Framebuffer well-formedness: plane dimensions are multiples of 16 (the
decoder constructs it padded, and decoding preserves dimensions). -/
def frameWF (f : VideoFrame) : Prop :=
  f.plane_y.width % 16 = 0 ∧ f.plane_y.height % 16 = 0 ∧
  f.plane_u.width % 16 = 0 ∧ f.plane_u.height % 16 = 0 ∧
  f.plane_v.width % 16 = 0 ∧ f.plane_v.height % 16 = 0

/-- The display frame's planes fit inside the framebuffer's. -/
def retWF (rf fb : VideoFrame) : Prop :=
  rf.plane_y.width ≤ fb.plane_y.width ∧ rf.plane_y.height ≤ fb.plane_y.height ∧
  rf.plane_u.width ≤ fb.plane_u.width ∧ rf.plane_u.height ≤ fb.plane_u.height ∧
  rf.plane_v.width ≤ fb.plane_v.width ∧ rf.plane_v.height ≤ fb.plane_v.height

/-- Decoder-state well-formedness, established by `Decoder::new` and
preserved by decoding. -/
def stWF (s : DecoderState) : Prop :=
  frameWF s.framebuffer ∧ retWF s.retframe s.framebuffer

/-- Equal header scalars and frame shapes; pixel content, `audio_buf` and
`eof` unconstrained. -/
def stShape (s t : DecoderState) : Prop :=
  s.width = t.width ∧ s.height = t.height ∧ s.framerate = t.framerate ∧
  s.samplerate = t.samplerate ∧ s.channels = t.channels ∧ s.qtables = t.qtables ∧
  frameShape s.framebuffer t.framebuffer ∧ frameShape s.retframe t.retframe

/-- States the video decoder cannot tell apart: equal scalars and `eof`,
framebuffer and display frame pointwise equal on their domains
(`audio_buf` unconstrained — it never influences video output). -/
def stEquiv (s t : DecoderState) : Prop :=
  s.width = t.width ∧ s.height = t.height ∧ s.framerate = t.framerate ∧
  s.samplerate = t.samplerate ∧ s.channels = t.channels ∧ s.qtables = t.qtables ∧
  s.eof = t.eof ∧ frameEqOn s.framebuffer t.framebuffer ∧
  frameEqOn s.retframe t.retframe

/-- Matching callback events: equal audio buffers, display frames equal on
their domains. -/
def evEquiv : DecEvent → DecEvent → Prop
  | .video f, .video g => frameEqOn f g
  | .audio a, .audio b => a = b
  | _, _ => False

theorem planeEqOn_shape {p q : VideoPlane} (h : planeEqOn p q) :
    p.width = q.width ∧ p.height = q.height :=
  ⟨h.1, h.2.1⟩

theorem frameEqOn_shape {f g : VideoFrame} (h : frameEqOn f g) : frameShape f g :=
  ⟨h.1, h.2.1, h.2.2.1.1, h.2.2.1.2.1, h.2.2.2.1.1, h.2.2.2.1.2.1,
    h.2.2.2.2.1, h.2.2.2.2.2.1⟩

theorem frameShape_trans {f g k : VideoFrame} (h1 : frameShape f g)
    (h2 : frameShape g k) : frameShape f k := by
  obtain ⟨a1, a2, a3, a4, a5, a6, a7, a8⟩ := h1
  obtain ⟨b1, b2, b3, b4, b5, b6, b7, b8⟩ := h2
  exact ⟨a1.trans b1, a2.trans b2, a3.trans b3, a4.trans b4, a5.trans b5,
    a6.trans b6, a7.trans b7, a8.trans b8⟩

theorem stShape_refl (s : DecoderState) : stShape s s :=
  ⟨rfl, rfl, rfl, rfl, rfl, rfl,
    ⟨rfl, rfl, rfl, rfl, rfl, rfl, rfl, rfl⟩,
    ⟨rfl, rfl, rfl, rfl, rfl, rfl, rfl, rfl⟩⟩

theorem stShape_trans {a b c : DecoderState} (h1 : stShape a b) (h2 : stShape b c) :
    stShape a c := by
  obtain ⟨a1, a2, a3, a4, a5, a6, a7, a8⟩ := h1
  obtain ⟨b1, b2, b3, b4, b5, b6, b7, b8⟩ := h2
  exact ⟨a1.trans b1, a2.trans b2, a3.trans b3, a4.trans b4, a5.trans b5,
    a6.trans b6, frameShape_trans a7 b7, frameShape_trans a8 b8⟩

theorem frameWF_of_shape {f g : VideoFrame} (h : frameShape f g) (hw : frameWF f) :
    frameWF g := by
  obtain ⟨_, _, h3, h4, h5, h6, h7, h8⟩ := h
  obtain ⟨w1, w2, w3, w4, w5, w6⟩ := hw
  exact ⟨h3 ▸ w1, h4 ▸ w2, h5 ▸ w3, h6 ▸ w4, h7 ▸ w5, h8 ▸ w6⟩

theorem retWF_of_shape {rf rg fb fg : VideoFrame} (h1 : frameShape rf rg)
    (h2 : frameShape fb fg) (hw : retWF rf fb) : retWF rg fg := by
  obtain ⟨_, _, a3, a4, a5, a6, a7, a8⟩ := h1
  obtain ⟨_, _, b3, b4, b5, b6, b7, b8⟩ := h2
  obtain ⟨w1, w2, w3, w4, w5, w6⟩ := hw
  exact ⟨a3 ▸ b3 ▸ w1, a4 ▸ b4 ▸ w2, a5 ▸ b5 ▸ w3, a6 ▸ b6 ▸ w4,
    a7 ▸ b7 ▸ w5, a8 ▸ b8 ▸ w6⟩

theorem foldl_blit_dims (g : Nat × Nat → MacroBlock) :
    ∀ (l : List (Nat × Nat)) (p0 : VideoPlane),
    (l.foldl (fun pl c => pl.blit_block (g c) (c.1 * 16) (c.2 * 16)) p0).width = p0.width ∧
    (l.foldl (fun pl c => pl.blit_block (g c) (c.1 * 16) (c.2 * 16)) p0).height = p0.height := by
  intro l
  induction l with
  | nil => intro p0; exact ⟨rfl, rfl⟩
  | cons c rest ih =>
    intro p0
    rw [List.foldl_cons]
    exact ih _

theorem deserialize_plane_dims (coeffs : List Int) (base : Nat) (qt : Nat → Int)
    (target : VideoPlane) :
    (deserialize_plane coeffs base qt target).width = target.width ∧
    (deserialize_plane coeffs base qt target).height = target.height := by
  rw [deserialize_plane]
  exact foldl_blit_dims _ _ _

/-- On-grid pixels of a deserialized I-plane are determined by the
coefficient buffer, the chunk base and the plane dimensions alone — the
old plane content never enters a decoded block. -/
theorem deserialize_plane_pix (coeffs : List Int) (base : Nat) (qt : Nat → Int)
    (target : VideoPlane) (x y : Nat)
    (h16w : target.width % 16 = 0) (h16h : target.height % 16 = 0)
    (hx : x < target.width) (hy : y < target.height) :
    (deserialize_plane coeffs base qt target).pix x y =
      (decode_block_intra
        (chunkM coeffs (base + (x / 16 + y / 16 * (target.width / 16)) * 4))
        (chunkM coeffs (base + (x / 16 + y / 16 * (target.width / 16)) * 4 + 1))
        (chunkM coeffs (base + (x / 16 + y / 16 * (target.width / 16)) * 4 + 2))
        (chunkM coeffs (base + (x / 16 + y / 16 * (target.width / 16)) * 4 + 3)) qt).pix
        (x % 16) (y % 16) := by
  rw [deserialize_plane]
  exact foldl_blit_pix
    (fun c => decode_block_intra
      (chunkM coeffs (base + (c.1 + c.2 * (target.width / 16)) * 4))
      (chunkM coeffs (base + (c.1 + c.2 * (target.width / 16)) * 4 + 1))
      (chunkM coeffs (base + (c.1 + c.2 * (target.width / 16)) * 4 + 2))
      (chunkM coeffs (base + (c.1 + c.2 * (target.width / 16)) * 4 + 3)) qt)
    (target.width / 16) (target.height / 16) x y target (by omega) (by omega)

/-- Deserializing the same coefficients into two planes of equal dimensions
yields planes equal on their domains. -/
theorem deserialize_plane_eqOn (coeffs : List Int) (base : Nat) (qt : Nat → Int)
    {p q : VideoPlane} (hw : p.width = q.width) (hh : p.height = q.height)
    (h16w : p.width % 16 = 0) (h16h : p.height % 16 = 0) :
    planeEqOn (deserialize_plane coeffs base qt p) (deserialize_plane coeffs base qt q) := by
  obtain ⟨dw, dh⟩ := deserialize_plane_dims coeffs base qt p
  obtain ⟨dw', dh'⟩ := deserialize_plane_dims coeffs base qt q
  refine ⟨by rw [dw, dw', hw], by rw [dh, dh', hh], ?_⟩
  intro x y hx hy
  rw [dw] at hx
  rw [dh] at hy
  rw [deserialize_plane_pix coeffs base qt p x y h16w h16h hx hy,
    deserialize_plane_pix coeffs base qt q x y (hw ▸ h16w) (hh ▸ h16h)
      (hw ▸ hx) (hh ▸ hy), hw]

/-- A delta block decoded against two planes equal on their domains has the
same content, provided its motion vector respects the bounds the source
debug-asserts (its reads then stay inside the plane). -/
theorem decode_block_delta_eqOn (blk : DeltaEncodedMacroBlock) {p q : VideoPlane}
    (heq : planeEqOn p q) (bx by_ : Nat) (qt : Nat → Int)
    (h1 : 0 ≤ (bx : Int) + blk.motion_x)
    (h2 : (bx : Int) + blk.motion_x ≤ (p.width : Int) - 16)
    (h3 : 0 ≤ (by_ : Int) + blk.motion_y)
    (h4 : (by_ : Int) + blk.motion_y ≤ (p.height : Int) - 16) :
    ∀ u v, u < 16 → v < 16 →
      (decode_block_delta blk p bx by_ qt).pix u v =
        (decode_block_delta blk q bx by_ qt).pix u v := by
  intro u v hu hv
  obtain ⟨hw, hh, hpix⟩ := heq
  have hprev : ∀ a b, a < 16 → b < 16 →
      (p.get_block ((bx : Int) + blk.motion_x).toNat ((by_ : Int) + blk.motion_y).toNat).pix
        a b =
      (q.get_block ((bx : Int) + blk.motion_x).toNat ((by_ : Int) + blk.motion_y).toNat).pix
        a b := by
    intro a b ha hb
    rw [VideoPlane.get_block, VideoPlane.get_block]
    dsimp only
    rw [if_pos ⟨ha, hb⟩, if_pos ⟨ha, hb⟩]
    exact hpix _ _ (by omega) (by omega)
  rw [decode_block_delta, decode_block_delta]
  dsimp only
  cases hsb : blk.subblocks with
  | none => exact hprev u v hu hv
  | some s =>
    simp only [MacroBlock.apply_residuals]
    rw [hprev u v hu hv]

theorem pframeBlock_motion (headers : List DeltaBlockHeader) (coeffs : List Int) (g : Nat) :
    (pframeBlock headers coeffs g).motion_x = (headers.getD g ⟨0, 0, false⟩).mvec_x ∧
    (pframeBlock headers coeffs g).motion_y = (headers.getD g ⟨0, 0, false⟩).mvec_y :=
  ⟨rfl, rfl⟩

theorem deserialize_plane_delta_dims {headers : List DeltaBlockHeader} {coeffs : List Int}
    {gOffset : Nat} {qt : Nat → Int} {target p1 : VideoPlane}
    (h : deserialize_plane_delta headers coeffs gOffset qt target = some p1) :
    p1.width = target.width ∧ p1.height = target.height := by
  rw [deserialize_plane_delta] at h
  split at h
  · obtain rfl : _ = p1 := Option.some_injective _ h
    exact foldl_blit_dims _ _ _
  · exact absurd h (by simp)

/-- Deserializing the same delta payload into two planes equal on their
domains: the bounds check agrees, and on success the results are equal on
their domains. -/
theorem deserialize_plane_delta_eqOn (headers : List DeltaBlockHeader) (coeffs : List Int)
    (gOffset : Nat) (qt : Nat → Int) {p q : VideoPlane} (heq : planeEqOn p q)
    (h16w : p.width % 16 = 0) (h16h : p.height % 16 = 0) :
    (deserialize_plane_delta headers coeffs gOffset qt p = none ∧
      deserialize_plane_delta headers coeffs gOffset qt q = none) ∨
    ∃ p1 q1, deserialize_plane_delta headers coeffs gOffset qt p = some p1 ∧
      deserialize_plane_delta headers coeffs gOffset qt q = some q1 ∧ planeEqOn p1 q1 := by
  obtain ⟨hw, hh, hpix⟩ := heq
  rw [deserialize_plane_delta, deserialize_plane_delta]
  simp only [← hw, ← hh, blockBoundsOK]
  by_cases hc : ((blockCoords (p.width / 16) (p.height / 16)).all (fun c =>
      decide (0 ≤ ((c.1 * 16 : Nat) : Int) +
          (headers.getD (gOffset + c.1 + c.2 * (p.width / 16)) ⟨0, 0, false⟩).mvec_x ∧
        ((c.1 * 16 : Nat) : Int) +
          (headers.getD (gOffset + c.1 + c.2 * (p.width / 16)) ⟨0, 0, false⟩).mvec_x ≤
          (p.width : Int) - 16 ∧
        0 ≤ ((c.2 * 16 : Nat) : Int) +
          (headers.getD (gOffset + c.1 + c.2 * (p.width / 16)) ⟨0, 0, false⟩).mvec_y ∧
        ((c.2 * 16 : Nat) : Int) +
          (headers.getD (gOffset + c.1 + c.2 * (p.width / 16)) ⟨0, 0, false⟩).mvec_y ≤
          (p.height : Int) - 16))) = true
  case neg => rw [if_neg hc, if_neg hc]; exact Or.inl ⟨rfl, rfl⟩
  case pos =>
    rw [if_pos hc, if_pos hc]
    refine Or.inr ⟨_, _, rfl, rfl, ?_⟩
    obtain ⟨dw, dh⟩ := foldl_blit_dims
      (fun c => decode_block_delta (pframeBlock headers coeffs
        (gOffset + c.1 + c.2 * (p.width / 16))) p (c.1 * 16) (c.2 * 16) qt)
      (blockCoords (p.width / 16) (p.height / 16)) p
    obtain ⟨dw', dh'⟩ := foldl_blit_dims
      (fun c => decode_block_delta (pframeBlock headers coeffs
        (gOffset + c.1 + c.2 * (p.width / 16))) q (c.1 * 16) (c.2 * 16) qt)
      (blockCoords (p.width / 16) (p.height / 16)) q
    refine ⟨by rw [dw, dw', hw], by rw [dh, dh', hh], ?_⟩
    intro x y hx hy
    rw [dw] at hx
    rw [dh] at hy
    rw [foldl_blit_pix _ (p.width / 16) (p.height / 16) x y p (by omega) (by omega),
      foldl_blit_pix _ (p.width / 16) (p.height / 16) x y q (by omega) (by omega)]
    have hmem : (x / 16, y / 16) ∈ blockCoords (p.width / 16) (p.height / 16) := by
      rw [mem_blockCoords]; omega
    have hb := of_decide_eq_true ((List.all_eq_true.1 hc) _ hmem)
    dsimp only at hb ⊢
    obtain ⟨hb1, hb2, hb3, hb4⟩ := hb
    rw [← (pframeBlock_motion headers coeffs
      (gOffset + x / 16 + y / 16 * (p.width / 16))).1] at hb1 hb2
    rw [← (pframeBlock_motion headers coeffs
      (gOffset + x / 16 + y / 16 * (p.width / 16))).2] at hb3 hb4
    exact decode_block_delta_eqOn _ ⟨hw, hh, hpix⟩ _ _ qt hb1 hb2 hb3 hb4
      (x % 16) (y % 16) (by omega) (by omega)

/-- A full-surface blit from equal sources into equal-size destinations. -/
theorem blit_full_eqOn {d d' s s' : VideoPlane}
    (hdw : d.width = d'.width) (hdh : d.height = d'.height)
    (hs : planeEqOn s s') (hw : d.width ≤ s.width) (hh : d.height ≤ s.height) :
    planeEqOn (d.blit s 0 0 0 0 d.width d.height)
      (d'.blit s' 0 0 0 0 d'.width d'.height) := by
  refine ⟨hdw, hdh, ?_⟩
  intro x y hx hy
  have hx' : x < d.width := hx
  have hy' : y < d.height := hy
  rw [VideoPlane.blit, VideoPlane.blit]
  dsimp only
  rw [if_pos (by omega), if_pos (by omega)]
  simp only [Nat.sub_zero, Nat.add_zero]
  exact hs.2.2 x y (by omega) (by omega)

theorem updateRetframe_shape (rf fb : VideoFrame) : frameShape rf (updateRetframe rf fb) :=
  ⟨rfl, rfl, rfl, rfl, rfl, rfl, rfl, rfl⟩

/-- Copying equivalent framebuffers into equal-shaped display frames yields
equivalent display frames (the copy covers the whole display frame, so its
old content is irrelevant). -/
theorem updateRetframe_eqOn {rf rg fb fg : VideoFrame} (hsh : frameShape rf rg)
    (hfb : frameEqOn fb fg) (hwf : retWF rf fb) :
    frameEqOn (updateRetframe rf fb) (updateRetframe rg fg) := by
  obtain ⟨s1, s2, s3, s4, s5, s6, s7, s8⟩ := hsh
  obtain ⟨_, _, fy, fu, fv⟩ := hfb
  obtain ⟨w1, w2, w3, w4, w5, w6⟩ := hwf
  exact ⟨s1, s2, blit_full_eqOn s3 s4 fy w1 w2, blit_full_eqOn s5 s6 fu w3 w4,
    blit_full_eqOn s7 s8 fv w5 w6⟩

/-- Decoding the same I-frame payload into two framebuffers of equal shape:
the parse is framebuffer-independent, and every on-grid pixel of the result
comes from the payload, so the results are equivalent **whatever** the two
old contents were (an I-frame resynchronizes the decoder). -/
theorem decode_iframe_sync (qts : List (List Nat)) (payload : List Nat)
    {fb fg : VideoFrame} (hsh : frameShape fb fg) (hwf : frameWF fb) :
    (decode_iframe qts fb payload = none ∧ decode_iframe qts fg payload = none) ∨
    ∃ g g', decode_iframe qts fb payload = some g ∧ decode_iframe qts fg payload = some g' ∧
      frameEqOn g g' ∧ frameShape fb g ∧ frameShape fg g' := by
  obtain ⟨hfw, hfh, hyw, hyh, huw, huh, hvw, hvh⟩ := hsh
  obtain ⟨w1, w2, w3, w4, w5, w6⟩ := hwf
  rw [decode_iframe, decode_iframe]
  simp only [← hyw, ← hyh, ← huw, ← huh]
  cases hr1 : readTableBytes 16 ⟨payload, 0⟩ with
  | none => exact Or.inl ⟨rfl, rfl⟩
  | some pr1 =>
    obtain ⟨table, r1⟩ := pr1
    dsimp only
    cases hr2 : readTableBytes 3 r1 with
    | none => exact Or.inl ⟨rfl, rfl⟩
    | some pr2 =>
      obtain ⟨idxs, r2⟩ := pr2
      dsimp only
      by_cases hq : idxs.getD 0 0 < qts.length ∧ idxs.getD 1 0 < qts.length ∧
          idxs.getD 2 0 < qts.length
      case neg => rw [if_neg hq, if_neg hq]; exact Or.inl ⟨rfl, rfl⟩
      case pos =>
        rw [if_pos hq, if_pos hq]
        cases hr3 : rleReadLoop (HuffmanTree.from_table table) (8 * payload.length)
            (8 * payload.length +
              (fb.plane_y.width / 16 * (fb.plane_y.height / 16) * 4 +
                2 * (fb.plane_u.width / 16 * (fb.plane_u.height / 16) * 4)) * 64 + 1) r2
            ((fb.plane_y.width / 16 * (fb.plane_y.height / 16) * 4 +
              2 * (fb.plane_u.width / 16 * (fb.plane_u.height / 16) * 4)) * 64) with
        | none => exact Or.inl ⟨rfl, rfl⟩
        | some pr3 =>
          obtain ⟨coeffs, r3⟩ := pr3
          dsimp only
          refine Or.inr ⟨_, _, rfl, rfl, ?_, ?_, ?_⟩
          · exact ⟨hfw, hfh,
              deserialize_plane_eqOn coeffs 0 _ hyw hyh w1 w2,
              deserialize_plane_eqOn coeffs _ _ huw huh w3 w4,
              deserialize_plane_eqOn coeffs _ _ hvw hvh w5 w6⟩
          · exact ⟨rfl, rfl, (deserialize_plane_dims _ _ _ _).1.symm,
              (deserialize_plane_dims _ _ _ _).2.symm,
              (deserialize_plane_dims _ _ _ _).1.symm,
              (deserialize_plane_dims _ _ _ _).2.symm,
              (deserialize_plane_dims _ _ _ _).1.symm,
              (deserialize_plane_dims _ _ _ _).2.symm⟩
          · exact ⟨rfl, rfl, (deserialize_plane_dims _ _ _ _).1.symm,
              (deserialize_plane_dims _ _ _ _).2.symm,
              (deserialize_plane_dims _ _ _ _).1.symm,
              (deserialize_plane_dims _ _ _ _).2.symm,
              (deserialize_plane_dims _ _ _ _).1.symm,
              (deserialize_plane_dims _ _ _ _).2.symm⟩

/-- Decoding the same P-frame payload against two equivalent framebuffers:
the parse and the bounds checks agree, and the results are equivalent. -/
theorem decode_pframe_sync (qts : List (List Nat)) (payload : List Nat)
    {fb fg : VideoFrame} (heq : frameEqOn fb fg) (hwf : frameWF fb) :
    (decode_pframe qts fb payload = none ∧ decode_pframe qts fg payload = none) ∨
    ∃ g g', decode_pframe qts fb payload = some g ∧ decode_pframe qts fg payload = some g' ∧
      frameEqOn g g' ∧ frameShape fb g ∧ frameShape fg g' := by
  obtain ⟨hfw, hfh, hpy, hpu, hpv⟩ := heq
  have hyw := hpy.1
  have hyh := hpy.2.1
  have huw := hpu.1
  have huh := hpu.2.1
  obtain ⟨w1, w2, w3, w4, w5, w6⟩ := hwf
  rw [decode_pframe, decode_pframe]
  simp only [← hyw, ← hyh, ← huw, ← huh]
  cases hr1 : readTableBytes 16 ⟨payload, 0⟩ with
  | none => exact Or.inl ⟨rfl, rfl⟩
  | some pr1 =>
    obtain ⟨table, r1⟩ := pr1
    dsimp only
    cases hr2 : readTableBytes 3 r1 with
    | none => exact Or.inl ⟨rfl, rfl⟩
    | some pr2 =>
      obtain ⟨idxs, r2⟩ := pr2
      dsimp only
      by_cases hq : idxs.getD 0 0 < qts.length ∧ idxs.getD 1 0 < qts.length ∧
          idxs.getD 2 0 < qts.length
      case neg => rw [if_neg hq, if_neg hq]; exact Or.inl ⟨rfl, rfl⟩
      case pos =>
        rw [if_pos hq, if_pos hq]
        cases hr3 : readBlockHeaders
            (fb.plane_y.width / 16 * (fb.plane_y.height / 16) +
              2 * (fb.plane_u.width / 16 * (fb.plane_u.height / 16))) r2 with
        | none => exact Or.inl ⟨rfl, rfl⟩
        | some pr3 =>
          obtain ⟨headers, r3⟩ := pr3
          dsimp only
          cases hr4 : rleReadLoop (HuffmanTree.from_table table) (8 * payload.length)
              (8 * payload.length + (headers.filter (fun hd => hd.has_coeff)).length * 256 + 1)
              r3 ((headers.filter (fun hd => hd.has_coeff)).length * 256) with
          | none => exact Or.inl ⟨rfl, rfl⟩
          | some pr4 =>
            obtain ⟨coeffs, r4⟩ := pr4
            dsimp only
            rcases deserialize_plane_delta_eqOn headers coeffs 0
                (natTableToQt (qts.getD (idxs.getD 0 0) [])) hpy w1 w2 with
              ⟨hny, hny'⟩ | ⟨py, py', hsy, hsy', heqy⟩
            · rw [hny, hny']; exact Or.inl ⟨rfl, rfl⟩
            · rw [hsy, hsy']
              dsimp only
              rcases deserialize_plane_delta_eqOn headers coeffs
                  (fb.plane_y.width / 16 * (fb.plane_y.height / 16))
                  (natTableToQt (qts.getD (idxs.getD 1 0) [])) hpu w3 w4 with
                ⟨hnu, hnu'⟩ | ⟨pu, pu', hsu, hsu', hequ⟩
              · rw [hnu, hnu']; exact Or.inl ⟨rfl, rfl⟩
              · rw [hsu, hsu']
                dsimp only
                rcases deserialize_plane_delta_eqOn headers coeffs
                    (fb.plane_y.width / 16 * (fb.plane_y.height / 16) +
                      fb.plane_u.width / 16 * (fb.plane_u.height / 16))
                    (natTableToQt (qts.getD (idxs.getD 2 0) [])) hpv w5 w6 with
                  ⟨hnv, hnv'⟩ | ⟨pv, pv', hsv, hsv', heqv⟩
                · rw [hnv, hnv']; exact Or.inl ⟨rfl, rfl⟩
                · rw [hsv, hsv']
                  dsimp only
                  refine Or.inr ⟨_, _, rfl, rfl, ?_, ?_, ?_⟩
                  · exact ⟨hfw, hfh, heqy, hequ, heqv⟩
                  · exact ⟨rfl, rfl, (deserialize_plane_delta_dims hsy).1.symm,
                      (deserialize_plane_delta_dims hsy).2.symm,
                      (deserialize_plane_delta_dims hsu).1.symm,
                      (deserialize_plane_delta_dims hsu).2.symm,
                      (deserialize_plane_delta_dims hsv).1.symm,
                      (deserialize_plane_delta_dims hsv).2.symm⟩
                  · exact ⟨rfl, rfl, (deserialize_plane_delta_dims hsy').1.symm,
                      (deserialize_plane_delta_dims hsy').2.symm,
                      (deserialize_plane_delta_dims hsu').1.symm,
                      (deserialize_plane_delta_dims hsu').2.symm,
                      (deserialize_plane_delta_dims hsv').1.symm,
                      (deserialize_plane_delta_dims hsv').2.symm⟩

theorem planeEqOn_refl (p : VideoPlane) : planeEqOn p p := ⟨rfl, rfl, fun _ _ _ _ => rfl⟩

theorem frameEqOn_refl (f : VideoFrame) : frameEqOn f f :=
  ⟨rfl, rfl, planeEqOn_refl _, planeEqOn_refl _, planeEqOn_refl _⟩

theorem frameShape_refl (f : VideoFrame) : frameShape f f :=
  ⟨rfl, rfl, rfl, rfl, rfl, rfl, rfl, rfl⟩

theorem decode_iframe_shape {qts : List (List Nat)} {payload : List Nat} {fb g : VideoFrame}
    (hwf : frameWF fb) (h : decode_iframe qts fb payload = some g) : frameShape fb g := by
  rcases decode_iframe_sync qts payload (frameShape_refl fb) hwf with
    ⟨hn, _⟩ | ⟨g1, g2, hg1, _, _, hs1, _⟩
  · rw [h] at hn; cases hn
  · rw [h] at hg1; cases hg1; exact hs1

theorem decode_pframe_shape {qts : List (List Nat)} {payload : List Nat} {fb g : VideoFrame}
    (hwf : frameWF fb) (h : decode_pframe qts fb payload = some g) : frameShape fb g := by
  rcases decode_pframe_sync qts payload (frameEqOn_refl fb) hwf with
    ⟨hn, _⟩ | ⟨g1, g2, hg1, _, _, hs1, _⟩
  · rw [h] at hn; cases hn
  · rw [h] at hg1; cases hg1; exact hs1

/-- One `advance_frame` packet loop preserves the state's shape and
well-formedness (the `eof` flag and pixel content may change). -/
theorem advanceFrameGo_pres (dA : Nat → List Nat → Option (List Int)) :
    ∀ (fuel : Nat) (s : DecoderState) (stream : List Nat) (s1 : DecoderState)
      (rest : List Nat) (evs : List DecEvent) (b : Bool),
    advanceFrameGo dA fuel s stream = some (s1, rest, evs, b) → stWF s →
    stShape s s1 ∧ stWF s1 := by
  intro fuel
  induction fuel with
  | zero => intro s stream s1 rest evs b h _; cases h
  | succ n ih =>
    intro s stream s1 rest evs b h hwf
    simp only [advanceFrameGo] at h
    cases hr0 : readU8 stream with
    | none => rw [hr0] at h; cases h
    | some pr0 =>
      obtain ⟨ptype, sb1⟩ := pr0
      rw [hr0] at h
      dsimp only at h
      cases hr32 : readU32 sb1 with
      | none => rw [hr32] at h; cases h
      | some pr32 =>
        obtain ⟨plen, s2⟩ := pr32
        rw [hr32] at h
        dsimp only at h
        match ptype, h with
        | 0, h => cases h; exact ⟨stShape_refl s, hwf⟩
        | 1, h =>
          by_cases hpl : plen = 0
          · rw [if_pos hpl] at h; cases h; exact ⟨stShape_refl s, hwf⟩
          · rw [if_neg hpl] at h
            cases hb : readBytes plen s2 with
            | none => rw [hb] at h; cases h
            | some prb =>
              obtain ⟨payload, rest0⟩ := prb
              rw [hb] at h
              dsimp only at h
              cases hdec : decode_iframe s.qtables s.framebuffer payload with
              | none => rw [hdec] at h; cases h
              | some fb1 =>
                rw [hdec] at h
                dsimp only at h
                cases h
                have hshf := decode_iframe_shape hwf.1 hdec
                refine ⟨⟨rfl, rfl, rfl, rfl, rfl, rfl, hshf, updateRetframe_shape _ _⟩, ?_, ?_⟩
                · exact frameWF_of_shape hshf hwf.1
                · exact retWF_of_shape (updateRetframe_shape _ _) hshf hwf.2
        | 2, h =>
          cases hb : readBytes plen s2 with
          | none => rw [hb] at h; cases h
          | some prb =>
            obtain ⟨payload, rest0⟩ := prb
            rw [hb] at h
            dsimp only at h
            cases hdec : decode_pframe s.qtables s.framebuffer payload with
            | none => rw [hdec] at h; cases h
            | some fb1 =>
              rw [hdec] at h
              dsimp only at h
              cases h
              have hshf := decode_pframe_shape hwf.1 hdec
              refine ⟨⟨rfl, rfl, rfl, rfl, rfl, rfl, hshf, updateRetframe_shape _ _⟩, ?_, ?_⟩
              · exact frameWF_of_shape hshf hwf.1
              · exact retWF_of_shape (updateRetframe_shape _ _) hshf hwf.2
        | 3, h =>
          cases hb : readBytes plen s2 with
          | none => rw [hb] at h; cases h
          | some prb =>
            obtain ⟨payload, rest0⟩ := prb
            rw [hb] at h
            dsimp only at h
            cases hda : dA s.channels payload with
            | none => rw [hda] at h; cases h
            | some buf =>
              rw [hda] at h
              dsimp only at h
              cases hrec : advanceFrameGo dA n { s with audio_buf := buf } rest0 with
              | none => rw [hrec] at h; cases h
              | some prr =>
                obtain ⟨st1, rest1, evs0, b0⟩ := prr
                rw [hrec] at h
                dsimp only at h
                cases h
                have hres := ih { s with audio_buf := buf } rest0 _ _ _ _ hrec hwf
                exact ⟨stShape_trans (stShape_refl s) hres.1, hres.2⟩
        | (m + 4), h =>
          exact ih s (s2.drop plen) s1 rest evs b h hwf

theorem advance_frame_pres {dA : Nat → List Nat → Option (List Int)} {s : DecoderState}
    {stream : List Nat} {s1 : DecoderState} {rest : List Nat} {evs : List DecEvent} {b : Bool}
    (h : advance_frame dA s stream = some (s1, rest, evs, b)) (hwf : stWF s) :
    stShape s s1 ∧ stWF s1 := by
  rw [advance_frame] at h
  split at h
  · cases h; exact ⟨stShape_refl s, hwf⟩
  · exact advanceFrameGo_pres dA _ s stream s1 rest evs b h hwf

/-- A full run to EOF preserves shape and well-formedness. -/
theorem runToEof_pres (dA : Nat → List Nat → Option (List Int)) :
    ∀ (n : Nat) (s : DecoderState) (stream : List Nat) (evs : List DecEvent)
      (e : DecoderState),
    runToEof dA n s stream = some (evs, e) → stWF s → stShape s e ∧ stWF e := by
  intro n
  induction n with
  | zero => intro s stream evs e h _; cases h
  | succ n ih =>
    intro s stream evs e h hwf
    simp only [runToEof] at h
    cases hadv : advance_frame dA s stream with
    | none => rw [hadv] at h; cases h
    | some pra =>
      obtain ⟨st1, s1r, evs0, b⟩ := pra
      rw [hadv] at h
      dsimp only at h
      obtain ⟨hsh1, hwf1⟩ := advance_frame_pres hadv hwf
      cases b with
      | false =>
        rw [if_neg Bool.false_ne_true] at h
        cases h
        exact ⟨hsh1, hwf1⟩
      | true =>
        rw [if_pos rfl] at h
        cases hrun : runToEof dA n st1 s1r with
        | none => rw [hrun] at h; cases h
        | some prr =>
          obtain ⟨evs2, e2⟩ := prr
          rw [hrun] at h
          dsimp only at h
          cases h
          obtain ⟨hsh2, hwf2⟩ := ih st1 s1r _ _ hrun hwf1
          exact ⟨stShape_trans hsh1 hsh2, hwf2⟩

theorem forall₂_append_rel {α β : Type} {R : α → β → Prop} :
    ∀ {l₁ u₁ : List α} {l₂ u₂ : List β}, List.Forall₂ R l₁ l₂ → List.Forall₂ R u₁ u₂ →
    List.Forall₂ R (l₁ ++ u₁) (l₂ ++ u₂) := by
  intro l₁ u₁ l₂ u₂ h1 h2
  induction h1 with
  | nil => simpa using h2
  | cons hab _ ih => exact List.Forall₂.cons hab ih

/-- Lock-step simulation of the packet loop from two equivalent states on
the same bytes: both fail together, or both succeed with the same remaining
bytes and result flag, equivalent states and matching events. -/
theorem advanceFrameGo_sync (dA : Nat → List Nat → Option (List Int)) :
    ∀ (fuel : Nat) (s t : DecoderState) (stream : List Nat),
    stEquiv s t → stWF s → stWF t →
    (advanceFrameGo dA fuel s stream = none ∧ advanceFrameGo dA fuel t stream = none) ∨
    ∃ s1 t1 rest evs evs' b,
      advanceFrameGo dA fuel s stream = some (s1, rest, evs, b) ∧
      advanceFrameGo dA fuel t stream = some (t1, rest, evs', b) ∧
      stEquiv s1 t1 ∧ stWF s1 ∧ stWF t1 ∧ List.Forall₂ evEquiv evs evs' := by
  intro fuel
  induction fuel with
  | zero => intro s t stream _ _ _; exact Or.inl ⟨rfl, rfl⟩
  | succ n ih =>
    intro s t stream heq hwfs hwft
    obtain ⟨e1, e2, e3, e4, e5, e6, e7, efb, erf⟩ := heq
    simp only [advanceFrameGo]
    simp only [← e5, ← e6]
    cases hr0 : readU8 stream with
    | none => exact Or.inl ⟨rfl, rfl⟩
    | some pr0 =>
      obtain ⟨ptype, sb1⟩ := pr0
      dsimp only
      cases hr32 : readU32 sb1 with
      | none => exact Or.inl ⟨rfl, rfl⟩
      | some pr32 =>
        obtain ⟨plen, s2⟩ := pr32
        dsimp only
        match ptype with
        | 0 =>
          exact Or.inr ⟨_, _, s2, [], [], false,
            rfl, rfl, ⟨e1, e2, e3, e4, rfl, rfl, rfl, efb, erf⟩, hwfs, hwft, List.Forall₂.nil⟩
        | 1 =>
          dsimp only
          by_cases hpl : plen = 0
          · rw [if_pos hpl, if_pos hpl]
            exact Or.inr ⟨s, t, s2, [], [], true, rfl, rfl,
              ⟨e1, e2, e3, e4, e5, e6, e7, efb, erf⟩, hwfs, hwft, List.Forall₂.nil⟩
          · rw [if_neg hpl, if_neg hpl]
            cases hb : readBytes plen s2 with
            | none => exact Or.inl ⟨rfl, rfl⟩
            | some prb =>
              obtain ⟨payload, rest0⟩ := prb
              dsimp only
              rcases decode_iframe_sync s.qtables payload (frameEqOn_shape efb) hwfs.1 with
                ⟨hn, hn'⟩ | ⟨fb1, fb1', hd, hd', heqf, hshf, hshf'⟩
              · rw [hn, hn']; exact Or.inl ⟨rfl, rfl⟩
              · rw [hd, hd']
                dsimp only
                refine Or.inr ⟨_, _, _, _, _, _, rfl, rfl, ?_, ?_, ?_, ?_⟩
                · exact ⟨e1, e2, e3, e4, rfl, rfl, e7, heqf,
                    updateRetframe_eqOn (frameEqOn_shape erf) heqf
                      (retWF_of_shape (frameShape_refl _) hshf hwfs.2)⟩
                · exact ⟨frameWF_of_shape hshf hwfs.1,
                    retWF_of_shape (updateRetframe_shape _ _) hshf hwfs.2⟩
                · exact ⟨frameWF_of_shape hshf' hwft.1,
                    retWF_of_shape (updateRetframe_shape _ _) hshf' hwft.2⟩
                · exact List.Forall₂.cons
                    (updateRetframe_eqOn (frameEqOn_shape erf) heqf
                      (retWF_of_shape (frameShape_refl _) hshf hwfs.2)) List.Forall₂.nil
        | 2 =>
          dsimp only
          cases hb : readBytes plen s2 with
          | none => exact Or.inl ⟨rfl, rfl⟩
          | some prb =>
            obtain ⟨payload, rest0⟩ := prb
            dsimp only
            rcases decode_pframe_sync s.qtables payload efb hwfs.1 with
              ⟨hn, hn'⟩ | ⟨fb1, fb1', hd, hd', heqf, hshf, hshf'⟩
            · rw [hn, hn']; exact Or.inl ⟨rfl, rfl⟩
            · rw [hd, hd']
              dsimp only
              refine Or.inr ⟨_, _, _, _, _, _, rfl, rfl, ?_, ?_, ?_, ?_⟩
              · exact ⟨e1, e2, e3, e4, rfl, rfl, e7, heqf,
                  updateRetframe_eqOn (frameEqOn_shape erf) heqf
                    (retWF_of_shape (frameShape_refl _) hshf hwfs.2)⟩
              · exact ⟨frameWF_of_shape hshf hwfs.1,
                  retWF_of_shape (updateRetframe_shape _ _) hshf hwfs.2⟩
              · exact ⟨frameWF_of_shape hshf' hwft.1,
                  retWF_of_shape (updateRetframe_shape _ _) hshf' hwft.2⟩
              · exact List.Forall₂.cons
                  (updateRetframe_eqOn (frameEqOn_shape erf) heqf
                    (retWF_of_shape (frameShape_refl _) hshf hwfs.2)) List.Forall₂.nil
        | 3 =>
          dsimp only
          cases hb : readBytes plen s2 with
          | none => exact Or.inl ⟨rfl, rfl⟩
          | some prb =>
            obtain ⟨payload, rest0⟩ := prb
            dsimp only
            cases hda : dA s.channels payload with
            | none => exact Or.inl ⟨rfl, rfl⟩
            | some buf =>
              dsimp only
              rcases ih { s with audio_buf := buf }
                  { width := t.width, height := t.height, framerate := t.framerate,
                    samplerate := t.samplerate, channels := s.channels, qtables := s.qtables,
                    framebuffer := t.framebuffer, retframe := t.retframe, audio_buf := buf,
                    eof := t.eof } rest0
                  ⟨e1, e2, e3, e4, rfl, rfl, e7, efb, erf⟩ hwfs hwft with
                ⟨hn, hn'⟩ | ⟨s1, t1, rest1, evs0, evs0', b0, hs, ht, hq1, hq2, hq3, hf⟩
              · rw [hn, hn']; exact Or.inl ⟨rfl, rfl⟩
              · rw [hs, ht]
                dsimp only
                exact Or.inr ⟨s1, t1, rest1, _, _, b0, rfl, rfl, hq1, hq2, hq3,
                  List.Forall₂.cons rfl hf⟩
        | (m + 4) =>
          exact ih s t (s2.drop plen) ⟨e1, e2, e3, e4, e5, e6, e7, efb, erf⟩ hwfs hwft

theorem advance_frame_sync (dA : Nat → List Nat → Option (List Int)) (s t : DecoderState)
    (stream : List Nat) (heq : stEquiv s t) (hwfs : stWF s) (hwft : stWF t) :
    (advance_frame dA s stream = none ∧ advance_frame dA t stream = none) ∨
    ∃ s1 t1 rest evs evs' b,
      advance_frame dA s stream = some (s1, rest, evs, b) ∧
      advance_frame dA t stream = some (t1, rest, evs', b) ∧
      stEquiv s1 t1 ∧ stWF s1 ∧ stWF t1 ∧ List.Forall₂ evEquiv evs evs' := by
  have e7 : t.eof = s.eof := heq.2.2.2.2.2.2.1.symm
  rw [advance_frame, advance_frame, e7]
  by_cases heof : s.eof = true
  · rw [if_pos heof, if_pos heof]
    exact Or.inr ⟨s, t, stream, [], [], false, rfl, rfl, heq, hwfs, hwft, List.Forall₂.nil⟩
  · rw [if_neg heof, if_neg heof]
    exact advanceFrameGo_sync dA (stream.length + 1) s t stream heq hwfs hwft

/-- Lock-step simulation of repeated `advance_frame` from two equivalent
states on the same bytes. -/
theorem runToEof_sync (dA : Nat → List Nat → Option (List Int)) :
    ∀ (n : Nat) (s t : DecoderState) (stream : List Nat),
    stEquiv s t → stWF s → stWF t →
    (runToEof dA n s stream = none ∧ runToEof dA n t stream = none) ∨
    ∃ evs evs' e e', runToEof dA n s stream = some (evs, e) ∧
      runToEof dA n t stream = some (evs', e') ∧
      List.Forall₂ evEquiv evs evs' ∧ stEquiv e e' ∧ stWF e ∧ stWF e' := by
  intro n
  induction n with
  | zero => intro s t stream _ _ _; exact Or.inl ⟨rfl, rfl⟩
  | succ n ih =>
    intro s t stream heq hwfs hwft
    simp only [runToEof]
    rcases advance_frame_sync dA s t stream heq hwfs hwft with
      ⟨hn, hn'⟩ | ⟨s1, t1, rest, evs0, evs0', b, hs, ht, hq, hw1, hw2, hf⟩
    · rw [hn, hn']; exact Or.inl ⟨rfl, rfl⟩
    · rw [hs, ht]
      dsimp only
      cases b with
      | false =>
        rw [if_neg Bool.false_ne_true, if_neg Bool.false_ne_true]
        exact Or.inr ⟨evs0, evs0', s1, t1, rfl, rfl, hf, hq, hw1, hw2⟩
      | true =>
        rw [if_pos rfl, if_pos rfl]
        rcases ih s1 t1 rest hq hw1 hw2 with
          ⟨hn, hn'⟩ | ⟨evs2, evs2', e, e', h1, h2, hf2, hq2, hw3, hw4⟩
        · rw [hn, hn']; exact Or.inl ⟨rfl, rfl⟩
        · rw [h1, h2]
          dsimp only
          exact Or.inr ⟨evs0 ++ evs2, evs0' ++ evs2', e, e', rfl, rfl,
            forall₂_append_rel hf hf2, hq2, hw3, hw4⟩

/-- A stream headed by a nonempty I-frame packet resynchronizes two runs:
from two states of equal shape — pixel content arbitrary — the first
`advance_frame` either fails in both runs or leaves them equivalent, because
the I-frame overwrites every framebuffer pixel on the block grid and the
full-frame copy overwrites every display pixel. -/
theorem advanceFrameGo_iframe_sync (dA : Nat → List Nat → Option (List Int))
    (fuel : Nat) (s t : DecoderState) (payload rest : List Nat) (hsh : stShape s t)
    (hes : s.eof = false) (het : t.eof = false) (hwfs : stWF s) (hwft : stWF t)
    (hplen : payload.length < 2 ^ 32) (hpos : payload.length ≠ 0) :
    (advanceFrameGo dA (fuel + 1) s (1 :: (u32le payload.length ++ (payload ++ rest))) =
        none ∧
      advanceFrameGo dA (fuel + 1) t (1 :: (u32le payload.length ++ (payload ++ rest))) =
        none) ∨
    ∃ s1 t1 evs evs',
      advanceFrameGo dA (fuel + 1) s (1 :: (u32le payload.length ++ (payload ++ rest))) =
        some (s1, rest, evs, true) ∧
      advanceFrameGo dA (fuel + 1) t (1 :: (u32le payload.length ++ (payload ++ rest))) =
        some (t1, rest, evs', true) ∧
      stEquiv s1 t1 ∧ stWF s1 ∧ stWF t1 ∧ List.Forall₂ evEquiv evs evs' := by
  obtain ⟨e1, e2, e3, e4, e5, e6, efb, erf⟩ := hsh
  simp only [advanceFrameGo, ← e6]
  simp only [readU8]
  rw [readU32_u32le payload.length hplen (payload ++ rest)]
  dsimp only
  rw [if_neg hpos, if_neg hpos]
  rw [readBytes]
  rw [if_pos (show payload.length ≤ (payload ++ rest).length by simp)]
  rw [List.take_left, List.drop_left]
  dsimp only
  rcases decode_iframe_sync s.qtables payload efb hwfs.1 with
    ⟨hn, hn'⟩ | ⟨fb1, fb1', hd, hd', heqf, hshf, hshf'⟩
  · rw [hn, hn']; exact Or.inl ⟨rfl, rfl⟩
  · rw [hd, hd']
    dsimp only
    refine Or.inr ⟨_, _, _, _, rfl, rfl, ?_, ?_, ?_, ?_⟩
    · exact ⟨e1, e2, e3, e4, e5, rfl, hes.trans het.symm, heqf,
        updateRetframe_eqOn erf heqf
          (retWF_of_shape (frameShape_refl _) hshf hwfs.2)⟩
    · exact ⟨frameWF_of_shape hshf hwfs.1,
        retWF_of_shape (updateRetframe_shape _ _) hshf hwfs.2⟩
    · exact ⟨frameWF_of_shape hshf' hwft.1,
        retWF_of_shape (updateRetframe_shape _ _) hshf' hwft.2⟩
    · exact List.Forall₂.cons
        (updateRetframe_eqOn erf heqf
          (retWF_of_shape (frameShape_refl _) hshf hwfs.2)) List.Forall₂.nil

theorem advance_frame_iframe_sync (dA : Nat → List Nat → Option (List Int))
    (s t : DecoderState) (payload rest : List Nat) (hsh : stShape s t)
    (hes : s.eof = false) (het : t.eof = false) (hwfs : stWF s) (hwft : stWF t)
    (hplen : payload.length < 2 ^ 32) (hpos : payload.length ≠ 0) :
    (advance_frame dA s (1 :: (u32le payload.length ++ (payload ++ rest))) = none ∧
      advance_frame dA t (1 :: (u32le payload.length ++ (payload ++ rest))) = none) ∨
    ∃ s1 t1 evs evs',
      advance_frame dA s (1 :: (u32le payload.length ++ (payload ++ rest))) =
        some (s1, rest, evs, true) ∧
      advance_frame dA t (1 :: (u32le payload.length ++ (payload ++ rest))) =
        some (t1, rest, evs', true) ∧
      stEquiv s1 t1 ∧ stWF s1 ∧ stWF t1 ∧ List.Forall₂ evEquiv evs evs' := by
  rw [advance_frame, advance_frame, hes, het]
  rw [if_neg Bool.false_ne_true, if_neg Bool.false_ne_true]
  exact advanceFrameGo_iframe_sync dA _ s t payload rest hsh hes het hwfs hwft hplen hpos

/-- Two full runs over a stream headed by a nonempty I-frame packet, from
two states of equal shape, deliver matching event sequences (or both
fail). -/
theorem runToEof_iframe_sync (dA : Nat → List Nat → Option (List Int)) (n : Nat)
    (s t : DecoderState) (payload rest : List Nat) (hsh : stShape s t)
    (hes : s.eof = false) (het : t.eof = false) (hwfs : stWF s) (hwft : stWF t)
    (hplen : payload.length < 2 ^ 32) (hpos : payload.length ≠ 0) :
    (runToEof dA n s (1 :: (u32le payload.length ++ (payload ++ rest))) = none ∧
      runToEof dA n t (1 :: (u32le payload.length ++ (payload ++ rest))) = none) ∨
    ∃ evs evs' e e',
      runToEof dA n s (1 :: (u32le payload.length ++ (payload ++ rest))) = some (evs, e) ∧
      runToEof dA n t (1 :: (u32le payload.length ++ (payload ++ rest))) = some (evs', e') ∧
      List.Forall₂ evEquiv evs evs' := by
  cases n with
  | zero => exact Or.inl ⟨rfl, rfl⟩
  | succ n =>
    simp only [runToEof]
    rcases advance_frame_iframe_sync dA s t payload rest
        ⟨hsh.1, hsh.2.1, hsh.2.2.1, hsh.2.2.2.1, hsh.2.2.2.2.1, hsh.2.2.2.2.2.1,
          hsh.2.2.2.2.2.2.1, hsh.2.2.2.2.2.2.2⟩ hes het hwfs hwft hplen hpos with
      ⟨hn, hn'⟩ | ⟨s1, t1, evs0, evs0', hs, ht, hq, hw1, hw2, hf⟩
    · rw [hn, hn']; exact Or.inl ⟨rfl, rfl⟩
    · rw [hs, ht]
      dsimp only
      rw [if_pos rfl, if_pos rfl]
      rcases runToEof_sync dA n s1 t1 rest hq hw1 hw2 with
        ⟨hn, hn'⟩ | ⟨evs2, evs2', e, e', h1, h2, hf2, _, _, _⟩
      · rw [hn, hn']; exact Or.inl ⟨rfl, rfl⟩
      · rw [h1, h2]
        dsimp only
        exact Or.inr ⟨evs0 ++ evs2, evs0' ++ evs2', e, e', rfl, rfl,
          forall₂_append_rel hf hf2⟩

/-- Matching event sequences deliver matching video frame sequences. -/
theorem videoFrames_forall₂ {evs evs' : List DecEvent}
    (h : List.Forall₂ evEquiv evs evs') :
    List.Forall₂ frameEqOn (videoFrames evs) (videoFrames evs') := by
  induction h with
  | nil => exact List.Forall₂.nil
  | cons hab htail ih =>
    rename_i a b l1 l2
    cases a with
    | video f =>
      cases b with
      | video g =>
        simp only [videoFrames, List.filterMap_cons]
        exact List.Forall₂.cons hab ih
      | audio a2 => exact absurd hab (by simp [evEquiv])
    | audio a1 =>
      cases b with
      | video g => exact absurd hab (by simp [evEquiv])
      | audio a2 =>
        simp only [videoFrames, List.filterMap_cons]
        exact ih

/-- Quant-table bytes of the C3 test stream: one table, all entries the
u16 value 16. -/
def c3QtBytes : List Nat := List.flatten (List.replicate 64 (u16le 16))

/-- C3 test container header: 16×16 video at 30 fps, no audio, one quant
table. -/
def c3Header : List Nat :=
  PFV_MAGIC_BYTES ++ u32le 100 ++ u16le 16 ++ u16le 16 ++ u16le 30 ++
    u16le 0 ++ u16le 0 ++ u16le 1 ++ c3QtBytes

/-- No-op P-frame payload: all-zero frequency table (no coefficients are
read), quant indices 0, and one zero byte carrying the three all-zero block
headers (no motion, no coefficients — every block copies the framebuffer). -/
def c3PPayload : List Nat := List.replicate 16 0 ++ [0, 0, 0] ++ [0]

/-- I-frame payload: frequency table giving symbols 0 and 15 one-bit codes
(15 ↦ bit 0, 0 ↦ bit 1), quant indices 0, and 13 bytes of `0xAA` — 52
symbol pairs (15, 0), zero-runs that fill all 768 coefficients with zeros,
so every luma sample decodes to 0 + 128 = 128. -/
def c3IPayload : List Nat :=
  (255 :: List.replicate 14 0 ++ [255]) ++ [0, 0, 0] ++ List.replicate 13 170

/-- The C3 packet bytes: no-op P-frame, all-zero I-frame, EOF. -/
def c3Packets : List Nat :=
  (2 :: u32le 20 ++ c3PPayload) ++ (1 :: u32le 32 ++ c3IPayload) ++ (0 :: u32le 0)

def c3Stream : List Nat := c3Header ++ c3Packets

/-- Observation of the two-pass experiment: parse the header, run to EOF,
model `reset` by clearing `eof` and rewinding to the packet bytes, run to
EOF again; report both passes' frame counts and the luma sample at (0,0) of
each pass's **first** delivered frame. -/
def c3Observe : Except DecodeError (Nat × Nat × Nat × Nat) :=
  (decoderNew c3Stream).map (fun sp =>
    match runToEof (fun _ _ => none) 8 sp.1 sp.2 with
    | none => (0, 0, 0, 0)
    | some (evs1, stEnd) =>
        match runToEof (fun _ _ => none) 8 { stEnd with eof := false } sp.2 with
        | none => (0, 0, 0, 0)
        | some (evs2, _) =>
            ((videoFrames evs1).length, (videoFrames evs2).length,
             ((videoFrames evs1).headD (VideoFrame.new 0 0)).plane_y.pix 0 0,
             ((videoFrames evs2).headD (VideoFrame.new 0 0)).plane_y.pix 0 0))

/-- C3 (counterexample): two-run determinism across `reset` fails for a
well-formed stream accepted by `Decoder::new` whose first video packet is a
P-frame.  `c3Stream` declares a 16×16 video with one quant table; its
packets are a no-op P-frame, an I-frame decoding every luma sample to 128,
and EOF.  Both passes deliver two frames, but the first pass's first frame
has luma 0 at (0, 0) — the P-frame copies the freshly zeroed framebuffer —
while the second pass's first frame has luma 128 there: `reset`
(`src/dec.rs` lines 174-178) clears `eof` and rewinds the reader but keeps
the framebuffer, so the I-frame output of pass one leaks into the first
frame of pass two, and the two frame sequences are not byte-identical. -/
theorem reset_not_deterministic :
    c3Observe = .ok (2, 2, 0, 128) ∧ (0 : Nat) ≠ 128 :=
  ⟨rfl, by decide⟩

/-- C3 (amended): two-run determinism across `reset` holds for every stream
whose first packet is a nonempty I-frame (as encoder-produced streams are —
the encoder always opens with an I-frame).  Re-running decoding from the
end state with `eof` cleared — the model of `Decoder::reset`, which clears
`eof` and seeks back to the first packet but does **not** reset the
framebuffer or display frame — succeeds whenever the first pass did,
delivers the same number of display frames, and the two frame sequences are
pointwise identical on their domains: the leading I-frame overwrites every
framebuffer pixel on the block grid, resynchronizing the two runs before
the first frame is delivered. -/
theorem reset_two_pass_agree (dA : Nat → List Nat → Option (List Int))
    (st stEnd : DecoderState) (payload rest : List Nat) (n : Nat) (evs1 : List DecEvent)
    (hwf : stWF st) (heof : st.eof = false)
    (hplen : payload.length < 2 ^ 32) (hpos : payload.length ≠ 0)
    (h1 : runToEof dA n st (1 :: (u32le payload.length ++ (payload ++ rest))) =
      some (evs1, stEnd)) :
    ∃ evs2 stEnd2,
      runToEof dA n { stEnd with eof := false }
        (1 :: (u32le payload.length ++ (payload ++ rest))) = some (evs2, stEnd2) ∧
      (videoFrames evs1).length = (videoFrames evs2).length ∧
      List.Forall₂ frameEqOn (videoFrames evs1) (videoFrames evs2) := by
  obtain ⟨hshape, hwfe⟩ := runToEof_pres dA n st _ _ _ h1 hwf
  rcases runToEof_iframe_sync dA n st { stEnd with eof := false } payload rest hshape heof
      rfl hwf hwfe hplen hpos with ⟨hn, _⟩ | ⟨evs, evs', e, e', ha, hb, hf⟩
  · rw [h1] at hn; cases hn
  · rw [h1] at ha
    cases ha
    have hvf := videoFrames_forall₂ hf
    exact ⟨evs', e', hb, List.Forall₂.length_eq hvf, hvf⟩

/-- Initial decoder state of a 16×16 video with one all-16 quant table, as
`Decoder::new` builds it. -/
def c3WState : DecoderState :=
  ⟨16, 16, 30, 0, 0, [List.replicate 64 16], VideoFrame.new_padded 16 16,
    VideoFrame.new 16 16, [], false⟩

/-- First pass of the witness run: the I-frame packet followed by EOF. -/
def c3WRun : Option (List DecEvent × DecoderState) :=
  runToEof (fun _ _ => none) 8 c3WState
    (1 :: (u32le c3IPayload.length ++ (c3IPayload ++ (0 :: u32le 0))))

def c3WEvs : List DecEvent := (c3WRun.getD ([], c3WState)).1

def c3WEnd : DecoderState := (c3WRun.getD ([], c3WState)).2

/-- C3 (witness for the amended theorem): a concrete 16×16 stream headed by
a nonempty I-frame, decoded to EOF, reset and decoded again. -/
theorem reset_two_pass_agree_witness :
    ∃ evs2 stEnd2,
      runToEof (fun _ _ => none) 8 { c3WEnd with eof := false }
        (1 :: (u32le c3IPayload.length ++ (c3IPayload ++ (0 :: u32le 0)))) =
        some (evs2, stEnd2) ∧
      (videoFrames c3WEvs).length = (videoFrames evs2).length ∧
      List.Forall₂ frameEqOn (videoFrames c3WEvs) (videoFrames evs2) :=
  reset_two_pass_agree (fun _ _ => none) c3WState c3WEnd c3IPayload (0 :: u32le 0) 8 c3WEvs
    (by unfold stWF frameWF retWF c3WState; decide) rfl (by decide) (by decide) rfl

end PFV
